import Mathlib

/-!
# MSBT container codec

A shallow embedding of `src/cpp/msbt.cpp` (namespace `oepd::msbt`): the text
constructor `MSBT::MSBT(std::string_view)` (`FromText`), `MSBT::ToText`, the
binary constructor `MSBT::MSBT(tcb::span<const u8>)` (`FromBinary`) and
`MSBT::ToBinary`.

Conventions.
* A `std::string` is a `List Char`, one `Char` per C++ `char`.
* A byte buffer is a `List UInt8`.
* A throwing or undefined execution is an `Except.error`; see `Error`.
* `size_t` values are natural numbers. `std::string::npos` (the largest
  `size_t`, `2 ^ 64 - 1`) is `none` in an `Option Nat`; the two places where the
  source computes with a possible `npos` (`find(...) + 2` and `pos - i`) are
  `addTwo` and `subCount`, which spell the wrap-around out. The `u16` and `u32`
  fields of the header hold their values modulo `2 ^ 16` and `2 ^ 32`.
* What `msbt.cpp` uses without defining it (the magic constants, the section
  constructors and `Write` methods) is the parameter `Externals` of the binary
  functions; `sampleExternals` is one instance, used for concrete evaluations.
-/

namespace Msbt

/-! ## Outcomes -/

/-- An execution that does not return normally. `InvalidDataError` is an
`exio::InvalidDataError` thrown by a `throw` statement of `msbt.cpp` with the
given message; `SectionError` is an exception escaping a section constructor
(defined outside `msbt.cpp`); `OutOfRange` is the `std::out_of_range` of
`std::string::substr`; `UndefinedBehaviour` marks an operation whose precondition
is violated (dereferencing an empty `std::optional`, `back()` of an empty string,
indexing past the end); `OutOfFuel` is not a behaviour of the program: the record
loop of `FromText` was cut after the given number of iterations. -/
inductive Error where
  | InvalidDataError (msg : String)
  | SectionError (msg : String)
  | OutOfRange
  | UndefinedBehaviour
  | OutOfFuel
  deriving DecidableEq, Repr

/-! ## Data model -/

/-- Modelled from the spec: `TextSection::TextEntry` is declared in `msbt/msbt.h`
and defined outside `msbt.cpp`. §3: a text entry is a body string; the entry is
built from a `std::string` (`TextEntry{body}`). -/
structure TextEntry where
  body : List Char
  deriving DecidableEq, Repr

/-- The label section: `m_label_entries` is a vector of `(index, label)` pairs
(`push_back({index, std::string{...}})`, read back as `entry.first`,
`entry.second`). -/
structure LabelSection where
  m_label_entries : List (Nat × List Char)
  deriving DecidableEq, Repr

/-- The text section: `m_text_entries` is a vector of text entries. -/
structure TextSection where
  m_text_entries : List TextEntry
  deriving DecidableEq, Repr

/-- Modelled from the spec: `AttributeSection` is declared in `msbt/msbt.h`.
§3: the attribute blob is opaque bytes that the codec carries through. -/
structure AttributeSection where
  data : List UInt8
  deriving DecidableEq

/-- The three optional members of an `MSBT` object. (The `m_reader` member is
only used by the binary constructor while it runs; `ToBinary` and `ToText` never
read it, so it is not part of the model.) -/
structure MSBT where
  m_label_section : Option LabelSection
  m_attribute_section : Option AttributeSection
  m_text_section : Option TextSection
  deriving DecidableEq

/-! ## `std::string` primitives used by the text constructor -/

/-- The value of `std::string::npos`. -/
def npos : Nat := 2 ^ 64 - 1

/-- The character `text[i]`: the `i`-th character for `i < size()`, the
terminating `'\0'` for `i == size()`, undefined beyond. -/
def charAt (text : List Char) (i : Nat) : Except Error Char :=
  match text[i]? with
  | some c => .ok c
  | none => if i = text.length then .ok (Char.ofNat 0) else .error .UndefinedBehaviour

/-- The call `text.substr(pos, count)`: throws `std::out_of_range` when
`pos > size()`, otherwise the characters `[pos, min(pos + count, size()))`.
The count `none` stands for a count that is at least the length of the rest of
the string (see `subCount`). -/
def substr (text : List Char) (pos : Nat) (count : Option Nat) : Except Error (List Char) :=
  if text.length < pos then .error .OutOfRange
  else
    match count with
    | some n => .ok ((text.drop pos).take n)
    | none => .ok (text.drop pos)

/-- The difference `pos - i` of two `size_t`, used as a `substr` count. When `pos`
is `npos`, or `pos < i`, the subtraction modulo `2 ^ 64` yields at least
`2 ^ 64 - 1 - i`, which is no smaller than what is left of any string after
position `i`; that count is `none`. -/
def subCount (pos : Option Nat) (i : Nat) : Option Nat :=
  match pos with
  | some p => if i ≤ p then some (p - i) else none
  | none => none

/-- The sum `r + 2` of a `find` result and 2, modulo `2 ^ 64`: a found position
`k` gives `k + 2`, and `npos + 2` wraps around. -/
def addTwo (r : Option Nat) : Nat :=
  match r with
  | some k => k + 2
  | none => (npos + 2) % 2 ^ 64

/-- Scanning for a character: the first position at or after `k` (the position of
the head of the list) holding `c`. -/
def findCharFrom (c : Char) : List Char → Nat → Option Nat
  | [], _ => none
  | d :: rest, k => if d = c then some k else findCharFrom c rest (k + 1)

/-- The call `text.find(c, pos)`: the first position `>= pos` holding `c`, or
`npos`. A start position `npos` finds nothing. -/
def find_char (text : List Char) (c : Char) (pos : Option Nat) : Option Nat :=
  match pos with
  | some p => findCharFrom c (text.drop p) p
  | none => none

/-- Scanning for a non-empty string: the first position at or after `k` at which
`needle` starts. -/
def findStrFrom (needle : List Char) : List Char → Nat → Option Nat
  | [], _ => none
  | d :: rest, k =>
    if needle.isPrefixOf (d :: rest) then some k else findStrFrom needle rest (k + 1)

/-- The call `text.find(needle, pos)` for a non-empty `needle`: the first
position `>= pos` at which `needle` occurs, or `npos`. -/
def find_str (text needle : List Char) (pos : Option Nat) : Option Nat :=
  match pos with
  | some p => findStrFrom needle (text.drop p) p
  | none => none

/-! ## The text constructor `MSBT::MSBT(std::string_view)` -/

/-- The body loop
`while (text[++i] != '\n' || text.substr(i + 1, 2) == "  ") { body += text[i]; if (text[i] == '\n') i += 2; }`.
Returns the final `i` and the body. The first argument bounds the number of
iterations; `text.length + 2` always suffices (`bodyLoop_fuel`). -/
def bodyLoop (text : List Char) : Nat → Nat → List Char → Except Error (Nat × List Char)
  | 0, _, _ => .error .OutOfFuel
  | fuel + 1, i, body =>
    let i := i + 1
    match charAt text i with
    | .error e => .error e
    | .ok c =>
      if c ≠ '\n' then bodyLoop text fuel i (body ++ [c])
      else
        match substr text (i + 1) (some 2) with
        | .error e => .error e
        | .ok s =>
          if s = [' ', ' '] then bodyLoop text fuel (i + 2) (body ++ [c])
          else .ok (i, body)

/-- The record loop `while (i < text.length()) { ... }`; `fuel` bounds the number
of iterations that may be run. -/
def recordLoop (text : List Char) : Nat → Nat → Option Nat → Nat →
    List (Nat × List Char) → List TextEntry →
    Except Error (List (Nat × List Char) × List TextEntry)
  | fuel, i, pos, index, labels, texts =>
    if i < text.length then
      match fuel with
      | 0 => .error .OutOfFuel
      | fuel + 1 =>
        match substr text i (subCount pos i) with
        | .error e => .error e
        | .ok label =>
          let labels := labels ++ [(index, label)]
          let i := addTwo (find_str text ['\n', ' ', ' '] pos)
          match bodyLoop text (text.length + 2) i [] with
          | .error e => .error e
          | .ok (i, body) =>
            let texts := texts ++ [TextEntry.mk body]
            let pos := find_char text ':' (some i)
            recordLoop text fuel (i + 1) pos (index + 1) labels texts
    else .ok (labels, texts)

/-- The text constructor (`FromText`). `text.back()` of an empty string is
undefined; a missing final newline is appended; `pos` starts at
`src.find(':')`. -/
def FromText (fuel : Nat) (src : List Char) : Except Error MSBT :=
  match src.getLast? with
  | none => .error .UndefinedBehaviour
  | some last =>
    let text := if last ≠ '\n' then src ++ ['\n'] else src
    match recordLoop text fuel 0 (find_char src ':' (some 0)) 0 [] [] with
    | .error e => .error e
    | .ok (labels, texts) => .ok ⟨some ⟨labels⟩, none, some ⟨texts⟩⟩

/-! ## `MSBT::ToText` -/

/-- The body with every newline followed by `indent` spaces. -/
def indentLines (indent : Nat) : List Char → List Char
  | [] => []
  | c :: rest =>
    if c = '\n' then '\n' :: (List.replicate indent ' ' ++ indentLines indent rest)
    else c :: indentLines indent rest

/-- Modelled from the spec: `TextEntry::ToText(indent)` is defined outside
`msbt.cpp`. §4.4: the body with each line prefixed by exactly `indent` spaces,
empty lines included. -/
def TextEntry.ToText (e : TextEntry) (indent : Nat) : List Char :=
  List.replicate indent ' ' ++ indentLines indent e.body

/-- The loop of `ToText` over the label entries, `result` being the accumulator.
Dereferencing an empty `m_text_section`, or indexing `m_text_entries` out of
range, is undefined. -/
def ToTextLoop (m_text_section : Option TextSection) :
    List (Nat × List Char) → List Char → Except Error (List Char)
  | [], result => .ok result
  | entry :: rest, result =>
    match m_text_section with
    | none => .error .UndefinedBehaviour
    | some ts =>
      match ts.m_text_entries[entry.1]? with
      | none => .error .UndefinedBehaviour
      | some e =>
        ToTextLoop m_text_section rest
          (result ++ (entry.2 ++ ": |-\n".toList ++ e.ToText 2 ++ ['\n']))

/-- The method `MSBT::ToText`. -/
def ToText (m : MSBT) : Except Error (List Char) :=
  match m.m_label_section with
  | none => .error .UndefinedBehaviour
  | some ls => ToTextLoop m.m_text_section ls.m_label_entries []

/-! ## Bytes, little-endian fields and the `exio` reader and writer -/

/-- The bytes of a `u16`, little-endian; the value is taken modulo `2 ^ 16`. -/
def le16 (v : Nat) : List UInt8 :=
  [UInt8.ofNat (v % 256), UInt8.ofNat (v / 256 % 256)]

/-- The bytes of a `u32`, little-endian; the value is taken modulo `2 ^ 32`. -/
def le32 (v : Nat) : List UInt8 :=
  [UInt8.ofNat (v % 256), UInt8.ofNat (v / 256 % 256), UInt8.ofNat (v / 65536 % 256),
    UInt8.ofNat (v / 16777216 % 256)]

/-- The byte at position `k` of a buffer, as a number. -/
def byteAt (bs : List UInt8) (k : Nat) : Nat := (bs.getD k 0).toNat

/-- The little-endian `u16` stored at offset `off`. -/
def readLe16 (bs : List UInt8) (off : Nat) : Nat :=
  byteAt bs off + 256 * byteAt bs (off + 1)

/-- The little-endian `u32` stored at offset `off`. -/
def readLe32 (bs : List UInt8) (off : Nat) : Nat :=
  byteAt bs off + 256 * byteAt bs (off + 1) + 65536 * byteAt bs (off + 2) +
    16777216 * byteAt bs (off + 3)

/-- Modelled from the spec: `exio::util::AlignUp` is not in `msbt.cpp`. §4.1: the
position is advanced to the next 16-byte boundary, that is to the least multiple
of `n` that is not below `value`. -/
def alignUp (value n : Nat) : Nat := value + (n - value % n) % n

/-- Modelled from the spec: `exio::BinaryReader` is not in `msbt.cpp` (§1: an
external reader with fixed-width reads and stream position control). It is a
borrowed buffer and a position. -/
structure BinaryReader where
  m_data : List UInt8
  m_offset : Nat
  deriving DecidableEq

/-- The call `Tell()`. -/
def BinaryReader.Tell (r : BinaryReader) : Nat := r.m_offset

/-- The call `Seek(offset)`. -/
def BinaryReader.Seek (r : BinaryReader) (offset : Nat) : BinaryReader := ⟨r.m_data, offset⟩

/-- The call `Read<T>()` for a `T` of `size` bytes: an empty optional when fewer
than `size` bytes are left, otherwise the bytes of the value, the position moving
past them. -/
def BinaryReader.Read (r : BinaryReader) (size : Nat) : Option (List UInt8 × BinaryReader) :=
  if r.m_offset + size > r.m_data.length then none
  else some ((r.m_data.drop r.m_offset).take size, ⟨r.m_data, r.m_offset + size⟩)

/-- Modelled from the spec: `exio::BinaryWriter` is not in `msbt.cpp` (§1, §5: a
writer that owns a growable buffer, with stream position control). It is the
buffer and a position. -/
structure BinaryWriter where
  m_data : List UInt8
  m_offset : Nat
  deriving DecidableEq

/-- The call `Tell()`. -/
def BinaryWriter.Tell (w : BinaryWriter) : Nat := w.m_offset

/-- The call `Seek(offset)`. -/
def BinaryWriter.Seek (w : BinaryWriter) (offset : Nat) : BinaryWriter := ⟨w.m_data, offset⟩

/-- Writing bytes at the position: the buffer is first grown with zero bytes to
hold them, then they replace what is at the position, which moves past them. -/
def BinaryWriter.WriteBytes (w : BinaryWriter) (bytes : List UInt8) : BinaryWriter :=
  let data :=
    if w.m_offset + bytes.length > w.m_data.length then
      w.m_data ++ List.replicate (w.m_offset + bytes.length - w.m_data.length) 0
    else w.m_data
  ⟨data.take w.m_offset ++ bytes ++ data.drop (w.m_offset + bytes.length),
    w.m_offset + bytes.length⟩

/-- The call `AlignUp(n)`: the position moves to the next multiple of `n`
(§4.1: each section's write is followed by padding to the next boundary). -/
def BinaryWriter.AlignUp (w : BinaryWriter) (n : Nat) : BinaryWriter :=
  w.Seek (alignUp w.Tell n)

/-- The call `GrowBuffer()`: the buffer is grown with zero bytes up to the
position (§4.1: padding is zero-filled on output). -/
def BinaryWriter.GrowBuffer (w : BinaryWriter) : BinaryWriter :=
  if w.m_offset > w.m_data.length then
    ⟨w.m_data ++ List.replicate (w.m_offset - w.m_data.length) 0, w.m_offset⟩
  else w

/-- The call `Buffer()`. -/
def BinaryWriter.Buffer (w : BinaryWriter) : List UInt8 := w.m_data

/-- The call `Finalize()`: the buffer is handed to the caller. -/
def BinaryWriter.Finalize (w : BinaryWriter) : List UInt8 := w.m_data

/-! ## Headers -/

/-- The packed `struct Header` (`sizeof(Header) == 0x20`). -/
structure Header where
  magic : List UInt8
  bom : Nat
  _padding_1 : Nat
  version : Nat
  num_sections : Nat
  _padding_2 : Nat
  file_size : Nat
  _padding_3 : List UInt8
  deriving DecidableEq

/-- The size of a `Header`. -/
def Header.size : Nat := 0x20

/-- A `Header` read from its 32 bytes, fields in declaration order, integers
little-endian. -/
def Header.ofBytes (bs : List UInt8) : Header :=
  ⟨bs.take 8, readLe16 bs 8, readLe16 bs 10, readLe16 bs 12, readLe16 bs 14, readLe16 bs 16,
    readLe32 bs 18, (bs.drop 22).take 10⟩

/-- The bytes of a `Header`, fields in declaration order, integers
little-endian. -/
def Header.toBytes (h : Header) : List UInt8 :=
  h.magic ++ le16 h.bom ++ le16 h._padding_1 ++ le16 h.version ++ le16 h.num_sections ++
    le16 h._padding_2 ++ le32 h.file_size ++ h._padding_3

/-- Modelled from the spec: `SectionHeader` is declared in `msbt/msbt.h`. §6: each
section is introduced by its own header (4-byte magic, size, padding); the
header takes 16 bytes, the `u32` size following the magic. -/
structure SectionHeader where
  magic : List UInt8
  table_size : Nat
  deriving DecidableEq

/-- The size of a `SectionHeader`. -/
def SectionHeader.size : Nat := 0x10

/-- A `SectionHeader` read from its bytes. -/
def SectionHeader.ofBytes (bs : List UInt8) : SectionHeader :=
  ⟨bs.take 4, readLe32 bs 4⟩

/-- Modelled from the spec: what `msbt.cpp` uses from `msbt/msbt.h` and from the
section classes without defining it. The magic constants (`MsbtMagic` is compared
with the 8-byte `Header::magic`); the section constructors
`LabelSection{reader}`, `AttributeSection{reader}` and
`TextSection{reader, table_size}`, which read a section from the reader
positioned after the section header and either fail (with a message) or return
the section and the position where they leave the reader (§4.2, §4.3); and the
`Write(writer)` methods, which emit the bytes of a section (its header and
payload) at the writer's position (§4.1, §4.2, §4.3), given here as the bytes
they emit. -/
structure Externals where
  MsbtMagic : List UInt8
  MsbtMagic_size : MsbtMagic.length = 8
  LabelSectionMagic : List UInt8
  AttributeSectionMagic : List UInt8
  TextSectionMagic : List UInt8
  readLabelSection : BinaryReader → Except String (LabelSection × Nat)
  readAttributeSection : BinaryReader → Except String (AttributeSection × Nat)
  readTextSection : BinaryReader → Nat → Except String (TextSection × Nat)
  labelSectionBytes : LabelSection → List UInt8
  attributeSectionBytes : AttributeSection → List UInt8
  textSectionBytes : TextSection → List UInt8

/-! ## The binary constructor `MSBT::MSBT(tcb::span<const u8>)` -/

/-- The text `std::string{magic.begin(), magic.end()}` of a magic. -/
def magicText (magic : List UInt8) : String :=
  String.mk (magic.map (fun b => Char.ofNat b.toNat))

/-- One iteration of the section loop: the section header is read
(dereferencing an empty optional is undefined), the section is built according
to its magic, and the reader is moved to the next 16-byte boundary. -/
def readSection (E : Externals) (r : BinaryReader) (m : MSBT) :
    Except Error (MSBT × BinaryReader) :=
  match r.Read SectionHeader.size with
  | none => .error .UndefinedBehaviour
  | some (bytes, r) =>
    let table_header := SectionHeader.ofBytes bytes
    let magic := table_header.magic
    if magic = E.LabelSectionMagic then
      match E.readLabelSection r with
      | .error e => .error (.SectionError e)
      | .ok (s, off) =>
        .ok (⟨some s, m.m_attribute_section, m.m_text_section⟩,
          (r.Seek off).Seek (alignUp (r.Seek off).Tell 0x10))
    else if magic = E.AttributeSectionMagic then
      match E.readAttributeSection r with
      | .error e => .error (.SectionError e)
      | .ok (s, off) =>
        .ok (⟨m.m_label_section, some s, m.m_text_section⟩,
          (r.Seek off).Seek (alignUp (r.Seek off).Tell 0x10))
    else if magic = E.TextSectionMagic then
      match E.readTextSection r table_header.table_size with
      | .error e => .error (.SectionError e)
      | .ok (s, off) =>
        .ok (⟨m.m_label_section, m.m_attribute_section, some s⟩,
          (r.Seek off).Seek (alignUp (r.Seek off).Tell 0x10))
    else .error (.InvalidDataError ("Unsupported data block: " ++ magicText magic))

/-- The loop `for (size_t i = 0; i < header.num_sections; i++)`, given the number
of iterations left. -/
def readSections (E : Externals) : Nat → BinaryReader → MSBT →
    Except Error (MSBT × BinaryReader)
  | 0, r, m => .ok (m, r)
  | n + 1, r, m =>
    match readSection E r m with
    | .error e => .error e
    | .ok (m, r) => readSections E n r m

/-- The binary constructor (`FromBinary`). -/
def FromBinary (E : Externals) (data : List UInt8) : Except Error MSBT :=
  match (BinaryReader.mk data 0).Read Header.size with
  | none => .error .UndefinedBehaviour
  | some (bytes, r) =>
    let header := Header.ofBytes bytes
    if header.magic ≠ E.MsbtMagic then .error (.InvalidDataError "Invalid MSBT magic")
    else if header.version ≠ 0x301 then
      .error (.InvalidDataError "Only MSBT version 3.0.1 is supported")
    else
      match readSections E header.num_sections r ⟨none, none, none⟩ with
      | .error e => .error e
      | .ok (m, _) =>
        if m.m_label_section.isNone then
          .error (.InvalidDataError "The label section (LBL1) was not found")
        else if m.m_text_section.isNone then
          .error (.InvalidDataError "The text section (TXT2) was not found")
        else .ok m

/-- The magics of the section headers that the section loop reads, in order,
up to the end of the loop or to the iteration at which it stops. -/
def sectionMagics (E : Externals) : Nat → BinaryReader → MSBT → List (List UInt8)
  | 0, _, _ => []
  | n + 1, r, m =>
    match r.Read SectionHeader.size with
    | none => []
    | some (bytes, _) =>
      (SectionHeader.ofBytes bytes).magic ::
        match readSection E r m with
        | .error _ => []
        | .ok (m, r) => sectionMagics E n r m

/-! ## `MSBT::ToBinary` -/

/-- The method `MSBT::ToBinary`. `header.num_sections` is a `u16` and
`header.file_size` a `u32`: the values assigned to them are truncated. -/
def ToBinary (E : Externals) (m : MSBT) : List UInt8 :=
  let writer : BinaryWriter := ⟨[], 0⟩
  let writer := writer.Seek Header.size
  let num_sections := 0
  let (writer, num_sections) :=
    match m.m_label_section with
    | some s => (((writer.WriteBytes (E.labelSectionBytes s)).AlignUp 0x10), num_sections + 1)
    | none => (writer, num_sections)
  let (writer, num_sections) :=
    match m.m_attribute_section with
    | some s =>
      (((writer.WriteBytes (E.attributeSectionBytes s)).AlignUp 0x10), num_sections + 1)
    | none => (writer, num_sections)
  let (writer, num_sections) :=
    match m.m_text_section with
    | some s => (((writer.WriteBytes (E.textSectionBytes s)).AlignUp 0x10), num_sections + 1)
    | none => (writer, num_sections)
  let writer := writer.GrowBuffer
  let header : Header :=
    ⟨E.MsbtMagic, 0xFEFF, 0, 0x301, num_sections % 2 ^ 16, 0,
      writer.Buffer.length % 2 ^ 32, List.replicate 10 0⟩
  let writer := writer.Seek 0
  let writer := writer.WriteBytes header.toBytes
  writer.Finalize

/-! ## The textual format as §4.4 words it -/

/-- The lines of a body: the runs of characters between its newlines. A body
with `k` newlines has `k + 1` lines, empty ones included. -/
def specLines : List Char → List (List Char)
  | [] => [[]]
  | c :: rest =>
    if c = '\n' then [] :: specLines rest
    else
      match specLines rest with
      | [] => [[c]]
      | line :: lines => (c :: line) :: lines

/-- One record of §4.4: the label, then `: |-` and a newline, then the lines of
the body, each prefixed by two spaces and separated by newlines, then a
newline. -/
def specRecord (label body : List Char) : List Char :=
  label ++ [':', ' ', '|', '-'] ++ ['\n'] ++
    ['\n'].intercalate ((specLines body).map (fun line => [' ', ' '] ++ line)) ++ ['\n']

/-- The document of §4.4: the records of the label entries, in label-table
order, each with the body of the text entry at the label's index. -/
def specToText (labels : List (Nat × List Char)) (texts : List TextEntry) : List Char :=
  (labels.map (fun entry => specRecord entry.2 (texts.getD entry.1 ⟨[]⟩).body)).flatten

/-- The text that one iteration of the `ToText` loop appends for a label and a
body: `entry.second + ": |-\n" + ToText(2) + '\n'`. -/
def recordText (label body : List Char) : List Char :=
  label ++ ": |-\n".toList ++ (TextEntry.mk body).ToText 2 ++ ['\n']

/-- The concatenation of the record texts of a list of (label, body) pairs. -/
def recordsText (recs : List (List Char × List Char)) : List Char :=
  recs.flatMap (fun r => recordText r.1 r.2)

/-! ## The layout of the output of `ToBinary` -/

/-- A section image followed by the zero bytes that pad it to a multiple of 16
bytes. -/
def padded (img : List UInt8) : List UInt8 :=
  img ++ List.replicate ((16 - img.length % 16) % 16) 0

/-- The images of the sections of a model that are present, in the order label,
attribute, text. -/
def sectionImages (E : Externals) (m : MSBT) : List (List UInt8) :=
  (m.m_label_section.map E.labelSectionBytes).toList ++
    (m.m_attribute_section.map E.attributeSectionBytes).toList ++
    (m.m_text_section.map E.textSectionBytes).toList

/-- The step of `ToBinary` for a section that is present: `Write` then
`AlignUp(0x10)`. -/
def writeSection (w : BinaryWriter) (img : List UInt8) : BinaryWriter :=
  (w.WriteBytes img).AlignUp 0x10

/-- The header that `ToBinary` writes for a model, in terms of the section
images: the section count is their number and the file size is 32 plus the
length of the padded images, both truncated to the width of their fields. -/
def outputHeader (E : Externals) (m : MSBT) : Header :=
  ⟨E.MsbtMagic, 0xFEFF, 0, 0x301, (sectionImages E m).length % 2 ^ 16, 0,
    (32 + ((sectionImages E m).flatMap padded).length) % 2 ^ 32, List.replicate 10 0⟩

/-! ## The contract of the section classes for re-reading what they wrote -/

/-- Modelled from the spec: the section constructors and `Write` methods are
defined outside `msbt.cpp`; this is what §4.1 to §4.3 and §6 ask of them for one
section `s`. The bytes that `Write` emits for `s` begin with a 16-byte section
header that carries the magic of the section kind; and whenever a buffer holds
these bytes, followed by their zero padding, at an offset `o` that is a multiple
of 16, the constructor run on a reader placed after the section header (and
given the bytes of that header) returns a section for which `Write` emits the
same bytes, and leaves the reader at a position whose next 16-byte boundary is
the end of the padding. -/
def ReadsBack {α : Type} (magic : List UInt8) (bytes : α → List UInt8)
    (read : BinaryReader → List UInt8 → Except String (α × Nat)) (s : α) : Prop :=
  (bytes s).take 4 = magic ∧ 16 ≤ (bytes s).length ∧
    ∀ (data : List UInt8) (o : Nat), o % 16 = 0 →
      (data.drop o).take (padded (bytes s)).length = padded (bytes s) →
      ∃ s1 off, read ⟨data, o + 16⟩ ((bytes s).take 16) = .ok (s1, off) ∧
        bytes s1 = bytes s ∧ alignUp off 16 = o + (padded (bytes s)).length

/-- The contract `ReadsBack` for a label section. -/
def LabelReadsBack (E : Externals) (s : LabelSection) : Prop :=
  ReadsBack E.LabelSectionMagic E.labelSectionBytes (fun r _ => E.readLabelSection r) s

/-- The contract `ReadsBack` for an attribute section, whose magic is told apart
from the label magic. -/
def AttributeReadsBack (E : Externals) (s : AttributeSection) : Prop :=
  E.AttributeSectionMagic ≠ E.LabelSectionMagic ∧
    ReadsBack E.AttributeSectionMagic E.attributeSectionBytes
      (fun r _ => E.readAttributeSection r) s

/-- The contract `ReadsBack` for a text section, whose magic is told apart from
the label and attribute magics; the constructor is given the size field of the
section header. -/
def TextReadsBack (E : Externals) (s : TextSection) : Prop :=
  E.TextSectionMagic ≠ E.LabelSectionMagic ∧ E.TextSectionMagic ≠ E.AttributeSectionMagic ∧
    ReadsBack E.TextSectionMagic E.textSectionBytes
      (fun r hdr => E.readTextSection r (readLe32 hdr 4)) s

/-! ## A sample of the external declarations

The theorems below hold for every `Externals`. For concrete evaluations the
following sample is used: the magic constants of the MSBT format (the messages of
`msbt.cpp` name `LBL1` and `TXT2`) and a simple encoding of the sections. -/

/-- The bytes of a string, one byte per character. -/
def charBytes (s : List Char) : List UInt8 := s.map (fun c => UInt8.ofNat c.toNat)

/-- The characters of a byte string. -/
def bytesChars (bs : List UInt8) : List Char := bs.map (fun b => Char.ofNat b.toNat)

/-- A sample section image: the 16-byte section header (magic, payload size, 8
zero bytes) followed by the payload. -/
def sampleImage (magic payload : List UInt8) : List UInt8 :=
  magic ++ le32 payload.length ++ List.replicate 8 0 ++ payload

/-- A sample string encoding: the length as a `u32`, then the bytes. -/
def sampleString (s : List Char) : List UInt8 := le32 s.length ++ charBytes s

/-- Reading a sample string: the string and the bytes that follow it. -/
def readSampleString (bs : List UInt8) : Option (List Char × List UInt8) :=
  if 4 + readLe32 bs 0 ≤ bs.length then
    some (bytesChars ((bs.drop 4).take (readLe32 bs 0)), bs.drop (4 + readLe32 bs 0))
  else none

/-- Reading `k` sample label entries (index as a `u32`, then the label). -/
def readSampleLabels : Nat → List UInt8 → Option (List (Nat × List Char) × List UInt8)
  | 0, bs => some ([], bs)
  | k + 1, bs =>
    if 4 ≤ bs.length then
      match readSampleString (bs.drop 4) with
      | none => none
      | some (label, rest) =>
        match readSampleLabels k rest with
        | none => none
        | some (entries, rest) => some ((readLe32 bs 0, label) :: entries, rest)
    else none

/-- Reading `k` sample text entries. -/
def readSampleTexts : Nat → List UInt8 → Option (List TextEntry × List UInt8)
  | 0, bs => some ([], bs)
  | k + 1, bs =>
    match readSampleString bs with
    | none => none
    | some (body, rest) =>
      match readSampleTexts k rest with
      | none => none
      | some (entries, rest) => some (TextEntry.mk body :: entries, rest)

/-- The sample externals. A label payload is the entry count and the entries; a
text payload is the entry count and the bodies; an attribute payload is the
blob, whose length is the size field of its section header. -/
def sampleExternals : Externals where
  MsbtMagic := charBytes "MsgStdBn".toList
  MsbtMagic_size := by decide
  LabelSectionMagic := charBytes "LBL1".toList
  AttributeSectionMagic := charBytes "ATR1".toList
  TextSectionMagic := charBytes "TXT2".toList
  readLabelSection := fun r =>
    let bs := r.m_data.drop r.m_offset
    if 4 ≤ bs.length then
      match readSampleLabels (readLe32 bs 0) (bs.drop 4) with
      | none => .error "truncated label section"
      | some (entries, rest) => .ok (⟨entries⟩, r.m_data.length - rest.length)
    else .error "truncated label section"
  readAttributeSection := fun r =>
    let size := readLe32 r.m_data (r.m_offset - 12)
    if r.m_offset + size ≤ r.m_data.length then
      .ok (⟨(r.m_data.drop r.m_offset).take size⟩, r.m_offset + size)
    else .error "truncated attribute section"
  readTextSection := fun r _ =>
    let bs := r.m_data.drop r.m_offset
    if 4 ≤ bs.length then
      match readSampleTexts (readLe32 bs 0) (bs.drop 4) with
      | none => .error "truncated text section"
      | some (entries, rest) => .ok (⟨entries⟩, r.m_data.length - rest.length)
    else .error "truncated text section"
  labelSectionBytes := fun s =>
    sampleImage (charBytes "LBL1".toList)
      (le32 s.m_label_entries.length ++
        s.m_label_entries.flatMap (fun e => le32 e.1 ++ sampleString e.2))
  attributeSectionBytes := fun s => sampleImage (charBytes "ATR1".toList) s.data
  textSectionBytes := fun s =>
    sampleImage (charBytes "TXT2".toList)
      (le32 s.m_text_entries.length ++ s.m_text_entries.flatMap (fun e => sampleString e.body))

/-- Equality of outcomes is decidable, so that concrete runs can be evaluated. -/
instance instDecidableEqExcept {ε α : Type} [DecidableEq ε] [DecidableEq α] :
    DecidableEq (Except ε α) := fun a b =>
  match a, b with
  | .ok x, .ok y =>
    if h : x = y then isTrue (by rw [h]) else isFalse (fun e => h (by cases e; rfl))
  | .error x, .error y =>
    if h : x = y then isTrue (by rw [h]) else isFalse (fun e => h (by cases e; rfl))
  | .ok _, .error _ => isFalse (fun e => by cases e)
  | .error _, .ok _ => isFalse (fun e => by cases e)

/-! ## Concrete buffers and models used as examples -/

/-- A 32-byte header with a wrong signature (`MsgStdBX`), version `0x301` and a
section count of 2. -/
def badMagicBuffer : List UInt8 :=
  Header.toBytes ⟨charBytes "MsgStdBX".toList, 0xFEFF, 0, 0x301, 2, 0, 32, List.replicate 10 0⟩

/-- A 32-byte header with the right signature, version `0x300` and a section
count of 2. -/
def oldVersionBuffer : List UInt8 :=
  Header.toBytes ⟨charBytes "MsgStdBn".toList, 0xFEFF, 0, 0x300, 2, 0, 32, List.replicate 10 0⟩

/-- A model with a label section only. -/
def labelOnlyModel : MSBT := ⟨some ⟨[(0, "A".toList)]⟩, none, none⟩

/-- A valid header declaring one section, followed by a section header whose
magic is `XXXX`. -/
def unknownSectionBuffer : List UInt8 :=
  Header.toBytes ⟨charBytes "MsgStdBn".toList, 0xFEFF, 0, 0x301, 1, 0, 48, List.replicate 10 0⟩
    ++ sampleImage (charBytes "XXXX".toList) []

/-- The two-entry model `[(0, "A", "x"), (1, "B", "y")]`. -/
def twoEntryModel : MSBT :=
  ⟨some ⟨[(0, "A".toList), (1, "B".toList)]⟩, none, some ⟨[⟨"x".toList⟩, ⟨"y".toList⟩]⟩⟩

/-- A model with one label and one body of `n` characters. -/
def longBodyModel (n : Nat) : MSBT :=
  ⟨some ⟨[(0, "A".toList)]⟩, none, some ⟨[⟨List.replicate n 'a'⟩]⟩⟩

/-- A model whose single body has `2 ^ 32` characters. -/
def hugeModel : MSBT := longBodyModel (2 ^ 32)

/-- A string that the sample encoding represents exactly: fewer than `2 ^ 32`
characters, each of them a single byte. -/
abbrev sampleEncodable (s : List Char) : Prop :=
  s.length < 2 ^ 32 ∧ ∀ c ∈ s, c.toNat < 256

/-- A model with the three sections. -/
def threeSectionModel : MSBT :=
  ⟨some ⟨[(0, "A".toList), (1, "B".toList)]⟩, some ⟨[1, 2, 3]⟩,
    some ⟨[⟨"x".toList⟩, ⟨"y".toList⟩]⟩⟩

/-- A valid header declaring three sections, followed by two label sections
(the labels `A` and `B`) and one text section (the body `x`), in the sample
encoding. -/
def twoLabelBuffer : List UInt8 :=
  Header.toBytes ⟨charBytes "MsgStdBn".toList, 0xFEFF, 0, 0x301, 3, 0, 128, List.replicate 10 0⟩
    ++ padded (sampleExternals.labelSectionBytes ⟨[(0, "A".toList)]⟩)
    ++ padded (sampleExternals.labelSectionBytes ⟨[(0, "B".toList)]⟩)
    ++ padded (sampleExternals.textSectionBytes ⟨[⟨"x".toList⟩]⟩)

/-- A model with two label entries and a single text entry. -/
def countMismatchModel : MSBT :=
  ⟨some ⟨[(0, "A".toList), (1, "B".toList)]⟩, none, some ⟨[⟨"x".toList⟩]⟩⟩

/-- A document without a colon: two lines. -/
def twoLineDocument : List Char := "abc\ndef\n".toList

/-! ## `ToText` produces the format of §4.4 -/

theorem specLines_ne_nil (body : List Char) : specLines body ≠ [] := by
  induction body with
  | nil => simp [specLines]
  | cons c rest ih =>
    unfold specLines
    split
    · simp
    · split <;> simp

theorem intercalate_cons_eq {α : Type} (sep x : List α) (xs : List (List α)) :
    sep.intercalate (x :: xs) = x ++ xs.flatMap (fun y => sep ++ y) := by
  induction xs generalizing x with
  | nil => simp [List.intercalate]
  | cons y ys ih =>
    have h := ih y
    simp only [List.intercalate, List.intersperse, List.flatten, List.flatMap_cons] at h ⊢
    rw [h]
    simp

theorem indentLines_of_lines (n : Nat) (body line : List Char) (lines : List (List Char))
    (h : specLines body = line :: lines) :
    indentLines n body =
      line ++ lines.flatMap (fun l => '\n' :: (List.replicate n ' ' ++ l)) := by
  induction body generalizing line lines with
  | nil =>
    simp only [specLines, List.cons.injEq] at h
    obtain ⟨h1, h2⟩ := h
    subst h1 h2
    simp [indentLines]
  | cons c rest ih =>
    by_cases hc : c = '\n'
    · subst hc
      simp only [specLines, if_true, List.cons.injEq] at h
      obtain ⟨h1, h2⟩ := h
      subst h1
      cases hl : specLines rest with
      | nil => exact absurd hl (specLines_ne_nil rest)
      | cons l2 ls =>
        rw [hl] at h2; subst h2
        simp [indentLines, ih l2 ls hl]
    · simp only [specLines, hc, if_false] at h
      cases hl : specLines rest with
      | nil => exact absurd hl (specLines_ne_nil rest)
      | cons l2 ls =>
        rw [hl] at h
        simp only [List.cons.injEq] at h
        obtain ⟨h1, h2⟩ := h
        subst h1 h2
        simp [indentLines, hc, ih l2 ls hl]

theorem TextEntry_ToText_eq_lines (e : TextEntry) (n : Nat) :
    e.ToText n =
      ['\n'].intercalate ((specLines e.body).map (fun line => List.replicate n ' ' ++ line)) := by
  cases hl : specLines e.body with
  | nil => exact absurd hl (specLines_ne_nil _)
  | cons line lines =>
    rw [List.map_cons, intercalate_cons_eq, TextEntry.ToText, indentLines_of_lines n _ line lines hl]
    simp [List.flatMap_map]

theorem ToText_record_eq (label : List Char) (e : TextEntry) :
    label ++ ": |-\n".toList ++ e.ToText 2 ++ ['\n'] = specRecord label e.body := by
  rw [TextEntry_ToText_eq_lines]
  simp [specRecord]

theorem ToTextLoop_eq (texts : List TextEntry) (labels : List (Nat × List Char))
    (result : List Char) (h : ∀ entry ∈ labels, entry.1 < texts.length) :
    ToTextLoop (some ⟨texts⟩) labels result = .ok (result ++ specToText labels texts) := by
  induction labels generalizing result with
  | nil => simp [ToTextLoop, specToText]
  | cons entry rest ih =>
    have h1 : entry.1 < texts.length := h entry (List.mem_cons_self _ _)
    have h2 : ∀ x ∈ rest, x.1 < texts.length := fun x hx => h x (List.mem_cons_of_mem _ hx)
    simp only [ToTextLoop, List.getElem?_eq_getElem h1]
    rw [ih _ h2, ToText_record_eq]
    simp [specToText, List.getD_eq_getElem?_getD, List.getElem?_eq_getElem h1]

/-- C2. For every model whose label indices are positions of the text table,
`ToText` returns exactly the concatenation, in label-table order, of the records
`label ++ ": |-" ++ newline ++ (body lines, each prefixed by two spaces) ++ newline`;
the model `[(0, "Greeting", "Hello\nworld")]` yields
`"Greeting: |-\n  Hello\n  world\n"`. -/
theorem ToText_format :
    (∀ (labels : List (Nat × List Char)) (texts : List TextEntry)
        (attr : Option AttributeSection),
        (∀ entry ∈ labels, entry.1 < texts.length) →
        ToText ⟨some ⟨labels⟩, attr, some ⟨texts⟩⟩ = .ok (specToText labels texts)) ∧
      ToText ⟨some ⟨[(0, "Greeting".toList)]⟩, none, some ⟨[⟨"Hello\nworld".toList⟩]⟩⟩
        = .ok "Greeting: |-\n  Hello\n  world\n".toList := by
  refine ⟨?_, by rfl⟩
  intro labels texts attr h
  simp [ToText, ToTextLoop_eq texts labels [] h]

/-- The format theorem at the model `[(0, "Greeting", "Hello\\nworld")]`. -/
theorem ToText_format_witness :
    (∀ entry ∈ [(0, "Greeting".toList)], entry.1 < [TextEntry.mk "Hello\nworld".toList].length) ∧
      ToText ⟨some ⟨[(0, "Greeting".toList)]⟩, none, some ⟨[⟨"Hello\nworld".toList⟩]⟩⟩
        = .ok (specToText [(0, "Greeting".toList)] [⟨"Hello\nworld".toList⟩]) :=
  ⟨by decide, ToText_format.1 _ _ _ (by decide)⟩


/-! ## Parsing back what `ToText` wrote -/

theorem charAt_append (pre post : List Char) (c : Char) (i : Nat) (h : i = pre.length) :
    charAt (pre ++ c :: post) i = .ok c := by
  subst h
  have : (pre ++ c :: post)[pre.length]? = some c := by
    rw [List.getElem?_append_right (Nat.le_refl _)]
    simp
  simp only [charAt, this]

theorem substr_two_append (pre post : List Char) (i : Nat) (h : i = pre.length) :
    substr (pre ++ post) i (some 2) = .ok (post.take 2) := by
  subst h
  simp [substr]

theorem take_two_spaces (rest : List Char) :
    rest.take 2 = [' ', ' '] ↔ [' ', ' '] <+: rest := by
  rw [List.prefix_iff_eq_take]
  constructor
  · intro h; simpa using h.symm
  · intro h; simpa using h.symm

theorem bodyLoop_indent (b : List Char) : ∀ (pre rest acc : List Char) (fuel i : Nat),
    i + 1 = pre.length → ¬ [' ', ' '] <+: rest → b.length < fuel →
    bodyLoop (pre ++ (indentLines 2 b ++ '\n' :: rest)) fuel i acc
      = .ok (pre.length + (indentLines 2 b).length, acc ++ b) := by
  induction b with
  | nil =>
    intro pre rest acc fuel i hi hrest hfuel
    obtain ⟨f, rfl⟩ : ∃ f, fuel = f + 1 := ⟨fuel - 1, by simp at hfuel; omega⟩
    have h2 : substr (pre ++ '\n' :: rest) (i + 1 + 1) (some 2) = .ok (rest.take 2) := by
      have := substr_two_append (pre ++ ['\n']) rest (i + 1 + 1) (by simp; omega)
      simpa using this
    have h3 : ¬ rest.take 2 = [' ', ' '] := fun h => hrest ((take_two_spaces rest).1 h)
    have h1 := charAt_append pre rest '\n' (i + 1) hi
    simp only [indentLines, List.nil_append, bodyLoop, h1, ne_eq, not_true_eq_false, if_false,
      h2, h3, List.length_nil, Nat.add_zero, List.append_nil]
    rw [hi]
  | cons c b ih =>
    intro pre rest acc fuel i hi hrest hfuel
    obtain ⟨f, rfl⟩ : ∃ f, fuel = f + 1 := ⟨fuel - 1, by simp at hfuel; omega⟩
    have hf : b.length < f := by simp at hfuel; omega
    by_cases hc : c = '\n'
    · subst hc
      have h1 : indentLines 2 ('\n' :: b) ++ '\n' :: rest
          = '\n' :: ([' ', ' '] ++ (indentLines 2 b ++ '\n' :: rest)) := by
        simp [indentLines]
      have h2 : substr (pre ++ '\n' :: ([' ', ' '] ++ (indentLines 2 b ++ '\n' :: rest)))
          (i + 1 + 1) (some 2) = .ok [' ', ' '] := by
        have := substr_two_append (pre ++ ['\n'])
          ([' ', ' '] ++ (indentLines 2 b ++ '\n' :: rest)) (i + 1 + 1) (by simp; omega)
        simpa using this
      have h4 := ih (pre ++ ['\n', ' ', ' ']) rest (acc ++ ['\n']) f (i + 1 + 2)
        (by simp; omega) hrest hf
      rw [h1]
      simp only [bodyLoop, charAt_append pre _ '\n' (i + 1) hi, ne_eq, not_true_eq_false,
        if_false, h2, if_true]
      simp only [List.append_assoc, List.cons_append, List.nil_append] at h4 ⊢
      rw [h4]
      simp [indentLines]
      omega
    · have h1 : indentLines 2 (c :: b) ++ '\n' :: rest
          = c :: (indentLines 2 b ++ '\n' :: rest) := by
        simp [indentLines, hc]
      have h4 := ih (pre ++ [c]) rest (acc ++ [c]) f (i + 1) (by simp; omega) hrest hf
      rw [h1]
      simp only [bodyLoop, charAt_append pre _ c (i + 1) hi, ne_eq, hc, not_false_eq_true,
        if_true]
      simp only [List.append_assoc, List.cons_append, List.nil_append] at h4 ⊢
      rw [h4]
      simp [indentLines, hc]
      omega

theorem findCharFrom_append (c : Char) (l post : List Char) (k : Nat) (h : c ∉ l) :
    findCharFrom c (l ++ c :: post) k = some (k + l.length) := by
  induction l generalizing k with
  | nil => simp [findCharFrom]
  | cons d l ih =>
    have hd : ¬ d = c := fun e => h (by simp [e])
    have hl : c ∉ l := fun e => h (by simp [e])
    rw [List.cons_append, findCharFrom, if_neg hd, ih (k + 1) hl, List.length_cons]
    have : k + 1 + l.length = k + (l.length + 1) := by omega
    rw [this]

theorem findCharFrom_none (c : Char) (l : List Char) (k : Nat) (h : c ∉ l) :
    findCharFrom c l k = none := by
  induction l generalizing k with
  | nil => simp [findCharFrom]
  | cons d l ih =>
    have hd : ¬ d = c := fun e => h (by simp [e])
    have hl : c ∉ l := fun e => h (by simp [e])
    simp [findCharFrom, hd, ih (k + 1) hl]

theorem find_str_marker (pre post : List Char) :
    find_str (pre ++ ([':', ' ', '|', '-', '\n', ' ', ' '] ++ post)) ['\n', ' ', ' ']
      (some pre.length) = some (pre.length + 4) := by
  simp [find_str, findStrFrom, List.isPrefixOf]


theorem recordText_eq (label body : List Char) :
    recordText label body
      = label ++ ([':', ' ', '|', '-', '\n', ' ', ' '] ++ (indentLines 2 body ++ ['\n'])) := by
  simp [recordText, TextEntry.ToText, List.replicate]

theorem recordsText_cons (r : List Char × List Char) (recs : List (List Char × List Char)) :
    recordsText (r :: recs) = recordText r.1 r.2 ++ recordsText recs := by
  simp [recordsText]

theorem not_indent_append_colon (l t : List Char) (h : ¬ [' ', ' '] <+: l) :
    ¬ [' ', ' '] <+: l ++ ':' :: t := by
  intro hp
  rw [← take_two_spaces] at hp h
  match l, h, hp with
  | [], _, hp => simp at hp
  | [x], _, hp => simp at hp
  | x :: y :: l, h, hp => simp at hp h; exact h hp.1 hp.2

theorem recordsText_not_indent (recs : List (List Char × List Char))
    (h : ∀ r ∈ recs, ¬ [' ', ' '] <+: r.1) : ¬ [' ', ' '] <+: recordsText recs := by
  cases recs with
  | nil => simp [recordsText]
  | cons r rest =>
    rw [recordsText_cons, recordText_eq, List.append_assoc]
    exact not_indent_append_colon _ _ (h r (List.mem_cons_self _ _))

theorem length_le_indentLines (n : Nat) (b : List Char) :
    b.length ≤ (indentLines n b).length := by
  induction b with
  | nil => simp
  | cons c b ih =>
    by_cases hc : c = '\n'
    · simp [indentLines, hc]; omega
    · simp [indentLines, hc]; omega

theorem recordLoop_records (recs : List (List Char × List Char)) :
    ∀ (done : List Char) (fuel index : Nat) (pos : Option Nat)
      (labels : List (Nat × List Char)) (texts : List TextEntry),
      (∀ r ∈ recs, ':' ∉ r.1) → (∀ r ∈ recs.tail, ¬ [' ', ' '] <+: r.1) →
      (∀ r rest, recs = r :: rest → pos = some (done.length + r.1.length)) →
      recs.length ≤ fuel →
      recordLoop (done ++ recordsText recs) fuel done.length pos index labels texts
        = .ok (labels ++ (recs.enumFrom index).map (fun p => (p.1, p.2.1)),
            texts ++ recs.map (fun r => TextEntry.mk r.2)) := by
  induction recs with
  | nil =>
    intro done fuel index pos labels texts _ _ _ _
    rw [recordLoop.eq_def]
    simp [recordsText]
  | cons r recs ih =>
    intro done fuel index pos labels texts hcolon hind hpos hfuel
    obtain ⟨l, b⟩ := r
    obtain ⟨f, rfl⟩ : ∃ f, fuel = f + 1 := ⟨fuel - 1, by simp at hfuel; omega⟩
    have hf : recs.length ≤ f := by simp at hfuel; omega
    have hp : pos = some (done.length + l.length) := hpos (l, b) recs rfl
    subst hp
    have hl : ':' ∉ l := hcolon (l, b) (List.mem_cons_self _ _)
    have hcolon2 : ∀ r ∈ recs, ':' ∉ r.1 := fun r hr => hcolon r (List.mem_cons_of_mem _ hr)
    have hind1 : ∀ r ∈ recs, ¬ [' ', ' '] <+: r.1 := by simpa using hind
    have hind2 : ∀ r ∈ recs.tail, ¬ [' ', ' '] <+: r.1 :=
      fun r hr => hind1 r (List.mem_of_mem_tail hr)
    -- the shape of the text
    have hT : done ++ recordsText ((l, b) :: recs)
        = (done ++ l) ++ ([':', ' ', '|', '-', '\n', ' ', ' '] ++
            (indentLines 2 b ++ '\n' :: recordsText recs)) := by
      rw [recordsText_cons, recordText_eq]; simp
    have hT2 : done ++ recordsText ((l, b) :: recs)
        = (done ++ l ++ [':', ' ', '|', '-', '\n', ' ', ' ']) ++
            (indentLines 2 b ++ '\n' :: recordsText recs) := by
      rw [hT]; simp
    have hT3 : done ++ recordsText ((l, b) :: recs)
        = (done ++ recordText l b) ++ recordsText recs := by
      rw [recordsText_cons]; simp
    have hlen : done.length < (done ++ recordsText ((l, b) :: recs)).length := by
      rw [hT]; simp
    -- the label
    have hlabel : substr (done ++ recordsText ((l, b) :: recs)) done.length
        (subCount (some (done.length + l.length)) done.length) = .ok l := by
      have h1 : ¬ (done ++ recordsText ((l, b) :: recs)).length < done.length := by omega
      simp only [subCount, Nat.le_add_right, if_true, substr, h1, if_false]
      rw [hT]; simp
    -- the start of the body
    have hfind : find_str (done ++ recordsText ((l, b) :: recs)) ['\n', ' ', ' ']
        (some (done.length + l.length)) = some (done.length + l.length + 4) := by
      rw [hT]
      have := find_str_marker (done ++ l) (indentLines 2 b ++ '\n' :: recordsText recs)
      simpa using this
    -- the body
    have hbody := bodyLoop_indent b (done ++ l ++ [':', ' ', '|', '-', '\n', ' ', ' '])
      (recordsText recs) [] ((done ++ recordsText ((l, b) :: recs)).length + 2)
      (done.length + l.length + 4 + 2) (by simp; omega) (recordsText_not_indent recs hind1)
      (by have := length_le_indentLines 2 b; rw [hT]; simp; omega)
    rw [← hT2] at hbody
    -- the next colon
    have hnext : find_char (done ++ recordsText ((l, b) :: recs)) ':'
        (some ((done ++ l ++ [':', ' ', '|', '-', '\n', ' ', ' ']).length +
          (indentLines 2 b).length))
        = match recs with
          | [] => none
          | r :: _ => some ((done ++ recordText l b).length + r.1.length) := by
      have hdrop : (done ++ recordsText ((l, b) :: recs)).drop
          ((done ++ l ++ [':', ' ', '|', '-', '\n', ' ', ' ']).length + (indentLines 2 b).length)
          = '\n' :: recordsText recs := by
        rw [hT2, ← List.append_assoc, ← List.length_append, List.drop_left]
      simp only [find_char, hdrop]
      cases recs with
      | nil => simp [recordsText, findCharFrom]
      | cons r rest =>
        have hr : ':' ∉ r.1 := hcolon2 r (List.mem_cons_self _ _)
        have h1 : '\n' :: recordsText (r :: rest)
            = ('\n' :: r.1) ++ ':' :: ([' ', '|', '-', '\n', ' ', ' '] ++
                (indentLines 2 r.2 ++ ['\n']) ++ recordsText rest) := by
          rw [recordsText_cons, recordText_eq]; simp
        rw [h1, findCharFrom_append ':' ('\n' :: r.1) _ _ (by simp [hr])]
        simp [recordText_eq]
        omega
    rw [recordLoop.eq_def]
    simp only [hlen, if_true, hlabel, hfind, addTwo, hbody, hnext]
    have hdone : (done ++ l ++ [':', ' ', '|', '-', '\n', ' ', ' ']).length +
        (indentLines 2 b).length + 1 = (done ++ recordText l b).length := by
      simp [recordText_eq]; omega
    rw [hdone, hT3]
    rw [ih (done ++ recordText l b) f (index + 1) _ _ _ hcolon2 hind2 ?_ hf]
    · simp [List.enumFrom_cons]
    · intro r rest hrec
      subst hrec
      rfl


theorem ToTextLoop_records (recs : List (List Char × List Char)) :
    ∀ (before : List TextEntry) (result : List Char),
      ToTextLoop (some ⟨before ++ recs.map (fun r => TextEntry.mk r.2)⟩)
        ((recs.enumFrom before.length).map (fun p => (p.1, p.2.1))) result
        = .ok (result ++ recordsText recs) := by
  induction recs with
  | nil => intro before result; simp [ToTextLoop, recordsText]
  | cons r recs ih =>
    intro before result
    have h := ih (before ++ [TextEntry.mk r.2]) (result ++ recordText r.1 r.2)
    simp only [List.length_append, List.length_singleton, List.append_assoc,
      List.singleton_append] at h
    simp only [List.enumFrom_cons, List.map_cons, ToTextLoop]
    rw [List.getElem?_append_right (Nat.le_refl _)]
    simp only [Nat.sub_self, List.getElem?_cons_zero]
    rw [recordsText_cons, ← List.append_assoc, ← h]
    have e : result ++ (r.1 ++ ": |-\n".toList ++ (TextEntry.mk r.2).ToText 2) ++ ['\n']
        = result ++ recordText r.1 r.2 := by
      simp [recordText]
    rw [e]

theorem recordsText_getLast (recs : List (List Char × List Char)) (h : recs ≠ []) :
    (recordsText recs).getLast? = some '\n' := by
  induction recs with
  | nil => exact absurd rfl h
  | cons r recs ih =>
    have h1 : (recordText r.1 r.2).getLast? = some '\n' := by
      unfold recordText
      exact List.getLast?_concat _
    rw [recordsText_cons, List.getLast?_append, h1]
    cases recs with
    | nil => simp [recordsText]
    | cons r2 rest =>
      rw [ih (by simp)]
      rfl

theorem find_first_colon (recs : List (List Char × List Char)) (r : List Char × List Char)
    (rest : List (List Char × List Char)) (h : recs = r :: rest) (hr : ':' ∉ r.1) :
    find_char (recordsText recs) ':' (some 0) = some (([] : List Char).length + r.1.length) := by
  subst h
  have h1 : recordsText (r :: rest) = r.1 ++ ':' :: ([' ', '|', '-', '\n', ' ', ' '] ++
      (indentLines 2 r.2 ++ ['\n']) ++ recordsText rest) := by
    rw [recordsText_cons, recordText_eq]; simp
  simp only [find_char, List.drop_zero]
  rw [h1, findCharFrom_append ':' r.1 _ 0 hr]
  simp

/-- The text constructor inverts `ToText` on a model given as a non-empty list of
(label, body) records, the `k`-th record carrying index `k`, when no label
contains a colon and no label but the first starts with two spaces. -/
theorem FromText_recordsText (recs : List (List Char × List Char)) (hne : recs ≠ [])
    (hcolon : ∀ r ∈ recs, ':' ∉ r.1) (hind : ∀ r ∈ recs.tail, ¬ [' ', ' '] <+: r.1)
    (fuel : Nat) (hfuel : recs.length ≤ fuel) :
    FromText fuel (recordsText recs)
      = .ok ⟨some ⟨(recs.enumFrom 0).map (fun p => (p.1, p.2.1))⟩, none,
          some ⟨recs.map (fun r => TextEntry.mk r.2)⟩⟩ := by
  have hloop := recordLoop_records recs [] fuel 0
    (find_char (recordsText recs) ':' (some 0)) [] [] hcolon hind
    (fun r rest h => find_first_colon recs r rest h (hcolon r (by simp [h]))) hfuel
  simp only [List.nil_append, List.length_nil] at hloop
  simp only [FromText, recordsText_getLast recs hne, ne_eq, not_true_eq_false, if_false, hloop]

theorem ToText_records (recs : List (List Char × List Char)) (attr : Option AttributeSection) :
    ToText ⟨some ⟨(recs.enumFrom 0).map (fun p => (p.1, p.2.1))⟩, attr,
        some ⟨recs.map (fun r => TextEntry.mk r.2)⟩⟩ = .ok (recordsText recs) := by
  have h := ToTextLoop_records recs [] []
  simp only [List.nil_append, List.length_nil] at h
  simp only [ToText, h]

theorem tables_as_records (labels : List (Nat × List Char)) (texts : List TextEntry)
    (hidx : labels.map Prod.fst = List.range texts.length) :
    labels = (((labels.map Prod.snd).zip (texts.map TextEntry.body)).enumFrom 0).map
        (fun p => (p.1, p.2.1)) ∧
      texts = ((labels.map Prod.snd).zip (texts.map TextEntry.body)).map
        (fun r => TextEntry.mk r.2) := by
  have hlen : labels.length = texts.length := by
    have := congrArg List.length hidx
    simpa using this
  constructor
  · apply List.ext_getElem
    · simp [hlen]
    · intro k h1 h2
      have hk : labels[k].1 = k := by
        have h3 : (labels.map Prod.fst)[k]? = some k := by
          rw [hidx]; exact List.getElem?_range (by omega)
        rw [List.getElem?_map, List.getElem?_eq_getElem h1] at h3
        simpa using h3
      simp only [List.getElem_map, List.getElem_enumFrom, List.getElem_zip, Nat.zero_add]
      exact Prod.ext hk rfl
  · apply List.ext_getElem
    · simp [hlen]
    · intro k h1 h2
      simp


/-- C1 (amended). For every model whose `n >= 1` label entries carry the indices
`0, 1, ..., n-1` in table order, whose text table has `n` bodies, whose labels
contain no colon and whose labels other than the first do not start with two
spaces, `ToText` returns a document and the text constructor parses that
document back to exactly the model (given enough iterations of the record loop:
`n` suffice). -/
theorem FromText_ToText_roundtrip (labels : List (Nat × List Char)) (texts : List TextEntry)
    (hidx : labels.map Prod.fst = List.range texts.length) (hne : labels ≠ [])
    (hcolon : ∀ entry ∈ labels, ':' ∉ entry.2)
    (hind : ∀ entry ∈ labels.tail, ¬ [' ', ' '] <+: entry.2) :
    ∃ doc, ToText ⟨some ⟨labels⟩, none, some ⟨texts⟩⟩ = .ok doc ∧
      ∀ fuel, labels.length ≤ fuel →
        FromText fuel doc = .ok ⟨some ⟨labels⟩, none, some ⟨texts⟩⟩ := by
  obtain ⟨hl, ht⟩ := tables_as_records labels texts hidx
  generalize (labels.map Prod.snd).zip (texts.map TextEntry.body) = recs at hl ht
  have hsnd : labels.map Prod.snd = recs.map Prod.fst := by
    rw [hl, List.map_map]
    have : (Prod.snd ∘ fun p : Nat × List Char × List Char => (p.1, p.2.1))
        = Prod.fst ∘ Prod.snd := rfl
    rw [this, ← List.map_map, List.enumFrom_map_snd]
  have hlen : recs.length = labels.length := by
    have := congrArg List.length hsnd
    simpa using this.symm
  have hne2 : recs ≠ [] := by
    intro h
    apply hne
    rw [hl, h]
    rfl
  have hcolon2 : ∀ r ∈ recs, ':' ∉ r.1 := by
    intro r hr
    have hm : r.1 ∈ labels.map Prod.snd := by
      rw [hsnd]; exact List.mem_map_of_mem _ hr
    obtain ⟨e, he, hee⟩ := List.mem_map.1 hm
    rw [← hee]
    exact hcolon e he
  have hind2 : ∀ r ∈ recs.tail, ¬ [' ', ' '] <+: r.1 := by
    intro r hr
    have hm : r.1 ∈ labels.tail.map Prod.snd := by
      rw [List.map_tail, hsnd, ← List.map_tail]; exact List.mem_map_of_mem _ hr
    obtain ⟨e, he, hee⟩ := List.mem_map.1 hm
    rw [← hee]
    exact hind e he
  refine ⟨recordsText recs, ?_, ?_⟩
  · have := ToText_records recs none
    rw [← hl, ← ht] at this
    exact this
  · intro fuel hfuel
    have := FromText_recordsText recs hne2 hcolon2 hind2 fuel (by omega)
    rw [← hl, ← ht] at this
    exact this

/-- The round trip at the two-entry model `[(0, "A", "x"), (1, "B", "y")]`. -/
theorem FromText_ToText_roundtrip_witness :
    ([(0, "A".toList), (1, "B".toList)].map Prod.fst
        = List.range [TextEntry.mk "x".toList, TextEntry.mk "y".toList].length) ∧
      ∃ doc, ToText ⟨some ⟨[(0, "A".toList), (1, "B".toList)]⟩, none,
          some ⟨[⟨"x".toList⟩, ⟨"y".toList⟩]⟩⟩ = .ok doc ∧
        ∀ fuel, 2 ≤ fuel → FromText fuel doc
          = .ok ⟨some ⟨[(0, "A".toList), (1, "B".toList)]⟩, none,
              some ⟨[⟨"x".toList⟩, ⟨"y".toList⟩]⟩⟩ :=
  ⟨by decide, FromText_ToText_roundtrip [(0, "A".toList), (1, "B".toList)]
    [⟨"x".toList⟩, ⟨"y".toList⟩] (by decide) (by decide) (by decide) (by decide)⟩

/-- C1 (as stated) fails. Each of these models serializes to a document that
the text constructor does not parse back to the model:
the label `a:b` is cut at its colon;
the indices `1, 0` come back as `0, 1` and the bodies in document order;
the second label `  B` (two leading spaces) is taken for a continuation line of
the first body;
and the empty model serializes to the empty document, on which the text
constructor evaluates `text.back()` of an empty string. -/
theorem FromText_ToText_fails :
    (ToText ⟨some ⟨[(0, "a:b".toList)]⟩, none, some ⟨[⟨"x".toList⟩]⟩⟩
        = .ok "a:b: |-\n  x\n".toList ∧
      FromText 1 "a:b: |-\n  x\n".toList
        = .ok ⟨some ⟨[(0, "a".toList)]⟩, none, some ⟨[⟨"x".toList⟩]⟩⟩ ∧
      (⟨some ⟨[(0, "a".toList)]⟩, none, some ⟨[⟨"x".toList⟩]⟩⟩ : MSBT)
        ≠ ⟨some ⟨[(0, "a:b".toList)]⟩, none, some ⟨[⟨"x".toList⟩]⟩⟩) ∧
    (ToText ⟨some ⟨[(1, "A".toList), (0, "B".toList)]⟩, none,
          some ⟨[⟨"x".toList⟩, ⟨"y".toList⟩]⟩⟩
        = .ok "A: |-\n  y\nB: |-\n  x\n".toList ∧
      FromText 2 "A: |-\n  y\nB: |-\n  x\n".toList
        = .ok ⟨some ⟨[(0, "A".toList), (1, "B".toList)]⟩, none,
            some ⟨[⟨"y".toList⟩, ⟨"x".toList⟩]⟩⟩) ∧
    (ToText ⟨some ⟨[(0, "A".toList), (1, "  B".toList)]⟩, none,
          some ⟨[⟨"x".toList⟩, ⟨"y".toList⟩]⟩⟩
        = .ok "A: |-\n  x\n  B: |-\n  y\n".toList ∧
      FromText 1 "A: |-\n  x\n  B: |-\n  y\n".toList
        = .ok ⟨some ⟨[(0, "A".toList)]⟩, none, some ⟨[⟨"x\nB: |-\ny".toList⟩]⟩⟩) ∧
    (ToText ⟨some ⟨[]⟩, none, some ⟨[]⟩⟩ = .ok [] ∧
      FromText 1 [] = .error .UndefinedBehaviour) :=
  ⟨⟨rfl, rfl, by decide⟩, ⟨rfl, rfl⟩, ⟨rfl, rfl⟩, ⟨rfl, rfl⟩⟩

/-! ## The binary constructor: header checks and the section loop -/

theorem byteAt_take (bs : List UInt8) (n k : Nat) (h : k < n) :
    byteAt (bs.take n) k = byteAt bs k := by
  simp [byteAt, List.getD_eq_getElem?_getD, List.getElem?_take, h]

theorem readLe16_take (bs : List UInt8) (n off : Nat) (h : off + 1 < n) :
    readLe16 (bs.take n) off = readLe16 bs off := by
  simp only [readLe16]
  rw [byteAt_take bs n off (by omega), byteAt_take bs n (off + 1) h]

theorem Read_header (data : List UInt8) (h32 : 32 ≤ data.length) :
    (BinaryReader.mk data 0).Read Header.size = some (data.take 32, ⟨data, 32⟩) := by
  have : ¬ (0 + 32 > data.length) := by omega
  simp [BinaryReader.Read, Header.size, this]

/-- With a full header, the right magic and version `0x301`, the constructor is
the section loop followed by the two presence checks. -/
theorem FromBinary_of_header (E : Externals) (data : List UInt8) (h32 : 32 ≤ data.length)
    (hmagic : data.take 8 = E.MsbtMagic) (hver : readLe16 data 12 = 0x301) :
    FromBinary E data =
      match readSections E (readLe16 data 14) ⟨data, 32⟩ ⟨none, none, none⟩ with
      | .error e => .error e
      | .ok (m, _) =>
        if m.m_label_section.isNone then
          .error (.InvalidDataError "The label section (LBL1) was not found")
        else if m.m_text_section.isNone then
          .error (.InvalidDataError "The text section (TXT2) was not found")
        else .ok m := by
  have h1 : (data.take 32).take 8 = E.MsbtMagic := by
    rw [List.take_take]; simpa using hmagic
  have h2 : readLe16 (data.take 32) 12 = 0x301 := by
    rw [readLe16_take data 32 12 (by omega)]; exact hver
  have h3 : readLe16 (data.take 32) 14 = readLe16 data 14 :=
    readLe16_take data 32 14 (by omega)
  simp only [FromBinary, Read_header data h32, Header.ofBytes, h1, h2, h3, ne_eq,
    not_true_eq_false, if_false]

/-- C7. A buffer that holds a full 32-byte header whose first 8 bytes are not
`MsbtMagic` makes the binary constructor throw "Invalid MSBT magic", whatever
the rest of the buffer is and whatever the section constructors would do: no
section header is read. -/
theorem FromBinary_bad_magic (E : Externals) (data : List UInt8) (h32 : 32 ≤ data.length)
    (hmagic : data.take 8 ≠ E.MsbtMagic) :
    FromBinary E data = .error (.InvalidDataError "Invalid MSBT magic") := by
  have h1 : (data.take 32).take 8 ≠ E.MsbtMagic := by
    rw [List.take_take]; simpa using hmagic
  simp only [FromBinary, Read_header data h32, Header.ofBytes, ne_eq, h1, not_false_eq_true,
    if_true]

theorem readSection_none (E : Externals) (r : BinaryReader) (m : MSBT)
    (hR : r.Read SectionHeader.size = none) :
    readSection E r m = .error .UndefinedBehaviour := by
  simp only [readSection, hR]

theorem readSection_label (E : Externals) (r r0 : BinaryReader) (m : MSBT) (bytes : List UInt8)
    (hR : r.Read SectionHeader.size = some (bytes, r0))
    (h1 : bytes.take 4 = E.LabelSectionMagic) :
    readSection E r m =
      match E.readLabelSection r0 with
      | .error e => .error (.SectionError e)
      | .ok (s, off) =>
        .ok (⟨some s, m.m_attribute_section, m.m_text_section⟩,
          (r0.Seek off).Seek (alignUp (r0.Seek off).Tell 0x10)) := by
  simp only [readSection, hR, SectionHeader.ofBytes, h1, if_true]

theorem readSection_attribute (E : Externals) (r r0 : BinaryReader) (m : MSBT)
    (bytes : List UInt8) (hR : r.Read SectionHeader.size = some (bytes, r0))
    (h1 : bytes.take 4 ≠ E.LabelSectionMagic) (h2 : bytes.take 4 = E.AttributeSectionMagic) :
    readSection E r m =
      match E.readAttributeSection r0 with
      | .error e => .error (.SectionError e)
      | .ok (s, off) =>
        .ok (⟨m.m_label_section, some s, m.m_text_section⟩,
          (r0.Seek off).Seek (alignUp (r0.Seek off).Tell 0x10)) := by
  have h1' : ¬ E.AttributeSectionMagic = E.LabelSectionMagic := by rw [← h2]; exact h1
  simp only [readSection, hR, SectionHeader.ofBytes, h2, h1', if_true, if_false]

theorem readSection_text (E : Externals) (r r0 : BinaryReader) (m : MSBT) (bytes : List UInt8)
    (hR : r.Read SectionHeader.size = some (bytes, r0))
    (h1 : bytes.take 4 ≠ E.LabelSectionMagic) (h2 : bytes.take 4 ≠ E.AttributeSectionMagic)
    (h3 : bytes.take 4 = E.TextSectionMagic) :
    readSection E r m =
      match E.readTextSection r0 (readLe32 bytes 4) with
      | .error e => .error (.SectionError e)
      | .ok (s, off) =>
        .ok (⟨m.m_label_section, m.m_attribute_section, some s⟩,
          (r0.Seek off).Seek (alignUp (r0.Seek off).Tell 0x10)) := by
  have h1' : ¬ E.TextSectionMagic = E.LabelSectionMagic := by rw [← h3]; exact h1
  have h2' : ¬ E.TextSectionMagic = E.AttributeSectionMagic := by rw [← h3]; exact h2
  simp only [readSection, hR, SectionHeader.ofBytes, h3, h1', h2', if_true, if_false]

theorem readSection_unknown (E : Externals) (r r0 : BinaryReader) (m : MSBT)
    (bytes : List UInt8) (hR : r.Read SectionHeader.size = some (bytes, r0))
    (h1 : bytes.take 4 ≠ E.LabelSectionMagic) (h2 : bytes.take 4 ≠ E.AttributeSectionMagic)
    (h3 : bytes.take 4 ≠ E.TextSectionMagic) :
    readSection E r m
      = .error (.InvalidDataError ("Unsupported data block: " ++ magicText (bytes.take 4))) := by
  simp only [readSection, hR, SectionHeader.ofBytes, h1, h2, h3, if_false]

theorem readSection_error_message (E : Externals) (r : BinaryReader) (m : MSBT) (msg : String)
    (h : readSection E r m = .error (.InvalidDataError msg)) :
    ∃ magic, msg = "Unsupported data block: " ++ magicText magic := by
  cases hR : r.Read SectionHeader.size with
  | none => rw [readSection_none E r m hR] at h; simp at h
  | some p =>
    obtain ⟨bytes, r0⟩ := p
    by_cases h1 : bytes.take 4 = E.LabelSectionMagic
    · rw [readSection_label E r r0 m bytes hR h1] at h
      split at h <;> simp at h
    · by_cases h2 : bytes.take 4 = E.AttributeSectionMagic
      · rw [readSection_attribute E r r0 m bytes hR h1 h2] at h
        split at h <;> simp at h
      · by_cases h3 : bytes.take 4 = E.TextSectionMagic
        · rw [readSection_text E r r0 m bytes hR h1 h2 h3] at h
          split at h <;> simp at h
        · rw [readSection_unknown E r r0 m bytes hR h1 h2 h3] at h
          simp only [Except.error.injEq, Error.InvalidDataError.injEq] at h
          exact ⟨_, h.symm⟩

theorem readSections_error_message (E : Externals) (n : Nat) (r : BinaryReader) (m : MSBT)
    (msg : String) (h : readSections E n r m = .error (.InvalidDataError msg)) :
    ∃ magic, msg = "Unsupported data block: " ++ magicText magic := by
  induction n generalizing r m with
  | zero => simp [readSections] at h
  | succ n ih =>
    unfold readSections at h
    split at h
    · rename_i e he
      simp only [Except.error.injEq] at h
      subst h
      exact readSection_error_message E r m msg he
    · exact ih _ _ h

theorem unsupported_block_ne (s : String) (t : List Char) (c : Char)
    (hc : c ≠ 'U') : "Unsupported data block: " ++ s ≠ String.mk (c :: t) := by
  intro h
  have h2 := congrArg String.data h
  simp only [String.data_append] at h2
  have h3 : ("Unsupported data block: ".data ++ s.data).head? = some 'U' := rfl
  rw [h2] at h3
  simp at h3
  exact hc h3


/-- C8. For a buffer that holds a full 32-byte header with the right magic, the
binary constructor throws "Only MSBT version 3.0.1 is supported" if and only if
the little-endian 16-bit version field (offset 12) is not `0x301`; the outcome
is then the same whatever the section constructors would do: no section is
read. -/
theorem FromBinary_version (E : Externals) (data : List UInt8) (h32 : 32 ≤ data.length)
    (hmagic : data.take 8 = E.MsbtMagic) :
    FromBinary E data = .error (.InvalidDataError "Only MSBT version 3.0.1 is supported")
      ↔ readLe16 data 12 ≠ 0x301 := by
  constructor
  · intro h hver
    rw [FromBinary_of_header E data h32 hmagic hver] at h
    split at h
    · rename_i e he
      simp only [Except.error.injEq] at h
      subst h
      obtain ⟨magic, hm⟩ := readSections_error_message E _ _ _ _ he
      exact unsupported_block_ne (magicText magic) _ 'O' (by decide) hm.symm
    · split at h
      · simp only [Except.error.injEq, Error.InvalidDataError.injEq] at h
        revert h; decide
      · split at h
        · simp only [Except.error.injEq, Error.InvalidDataError.injEq] at h
          revert h; decide
        · simp at h
  · intro hver
    have h1 : (data.take 32).take 8 = E.MsbtMagic := by
      rw [List.take_take]; simpa using hmagic
    have h2 : readLe16 (data.take 32) 12 ≠ 0x301 := by
      rw [readLe16_take data 32 12 (by omega)]; exact hver
    simp only [FromBinary, Read_header data h32, Header.ofBytes, h1, ne_eq, not_true_eq_false,
      if_false, h2, not_false_eq_true, if_true]

theorem readSection_presence (E : Externals) (r r1 : BinaryReader) (m m1 : MSBT)
    (h : readSection E r m = .ok (m1, r1)) :
    ∃ bytes r0, r.Read SectionHeader.size = some (bytes, r0) ∧
      (m1.m_label_section.isSome = true ↔
        m.m_label_section.isSome = true ∨ bytes.take 4 = E.LabelSectionMagic) ∧
      (m1.m_text_section.isSome = true →
        m.m_text_section.isSome = true ∨ bytes.take 4 = E.TextSectionMagic) := by
  cases hR : r.Read SectionHeader.size with
  | none => rw [readSection_none E r m hR] at h; simp at h
  | some p =>
    obtain ⟨bytes, r0⟩ := p
    refine ⟨bytes, r0, rfl, ?_⟩
    by_cases h1 : bytes.take 4 = E.LabelSectionMagic
    · rw [readSection_label E r r0 m bytes hR h1] at h
      split at h
      · simp at h
      · simp only [Except.ok.injEq, Prod.mk.injEq] at h
        obtain ⟨hm, _⟩ := h
        subst hm
        simp [h1]
        intro h; exact Or.inl h
    · by_cases h2 : bytes.take 4 = E.AttributeSectionMagic
      · rw [readSection_attribute E r r0 m bytes hR h1 h2] at h
        split at h
        · simp at h
        · simp only [Except.ok.injEq, Prod.mk.injEq] at h
          obtain ⟨hm, _⟩ := h
          subst hm
          simp [h1]
          intro h; exact Or.inl h
      · by_cases h3 : bytes.take 4 = E.TextSectionMagic
        · rw [readSection_text E r r0 m bytes hR h1 h2 h3] at h
          split at h
          · simp at h
          · simp only [Except.ok.injEq, Prod.mk.injEq] at h
            obtain ⟨hm, _⟩ := h
            subst hm
            simp [h1, h3]
            intro h; exact absurd (h3.trans h) h1
        · rw [readSection_unknown E r r0 m bytes hR h1 h2 h3] at h
          simp at h

theorem readSections_presence (E : Externals) (n : Nat) (r r1 : BinaryReader) (m m1 : MSBT)
    (h : readSections E n r m = .ok (m1, r1)) :
    (m1.m_label_section.isSome = true ↔
      m.m_label_section.isSome = true ∨ E.LabelSectionMagic ∈ sectionMagics E n r m) ∧
    (m1.m_text_section.isSome = true →
      m.m_text_section.isSome = true ∨ E.TextSectionMagic ∈ sectionMagics E n r m) := by
  induction n generalizing r m with
  | zero =>
    simp only [readSections, Except.ok.injEq, Prod.mk.injEq] at h
    obtain ⟨hm, _⟩ := h
    subst hm
    simp [sectionMagics]
  | succ n ih =>
    unfold readSections at h
    cases hS : readSection E r m with
    | error e => rw [hS] at h; simp at h
    | ok p =>
      obtain ⟨m2, r2⟩ := p
      rw [hS] at h
      simp only at h
      obtain ⟨bytes, r0, hR, hl, ht⟩ := readSection_presence E r r2 m m2 hS
      obtain ⟨il, it⟩ := ih r2 m2 h
      have hmag : sectionMagics E (n + 1) r m = bytes.take 4 :: sectionMagics E n r2 m2 := by
        simp only [sectionMagics, hR, hS, SectionHeader.ofBytes]
      rw [hmag]
      constructor
      · rw [il, hl]
        simp only [List.mem_cons]
        constructor
        · rintro ((h1 | h1) | h1)
          · exact Or.inl h1
          · exact Or.inr (Or.inl h1.symm)
          · exact Or.inr (Or.inr h1)
        · rintro (h1 | h1 | h1)
          · exact Or.inl (Or.inl h1)
          · exact Or.inl (Or.inr h1.symm)
          · exact Or.inr h1
      · intro h1
        simp only [List.mem_cons]
        rcases it h1 with h2 | h2
        · rcases ht h2 with h3 | h3
          · exact Or.inl h3
          · exact Or.inr (Or.inl h3.symm)
        · exact Or.inr (Or.inr h2)

/-- C9. For a buffer with a valid header (full header, right magic, version
`0x301`) whose section loop reads all the declared sections successfully: if a
section header with the label magic was read and none with the text magic, the
constructor throws "The text section (TXT2) was not found"; if no section header
with the label magic was read, it throws "The label section (LBL1) was not
found" (whether or not a text section was read). -/
theorem FromBinary_missing_section (E : Externals) (data : List UInt8)
    (h32 : 32 ≤ data.length) (hmagic : data.take 8 = E.MsbtMagic)
    (hver : readLe16 data 12 = 0x301) (m : MSBT) (r : BinaryReader)
    (hread : readSections E (readLe16 data 14) ⟨data, 32⟩ ⟨none, none, none⟩ = .ok (m, r)) :
    (E.LabelSectionMagic ∈ sectionMagics E (readLe16 data 14) ⟨data, 32⟩ ⟨none, none, none⟩ →
      E.TextSectionMagic ∉ sectionMagics E (readLe16 data 14) ⟨data, 32⟩ ⟨none, none, none⟩ →
      FromBinary E data
        = .error (.InvalidDataError "The text section (TXT2) was not found")) ∧
    (E.LabelSectionMagic ∉ sectionMagics E (readLe16 data 14) ⟨data, 32⟩ ⟨none, none, none⟩ →
      FromBinary E data
        = .error (.InvalidDataError "The label section (LBL1) was not found")) := by
  obtain ⟨hl, ht⟩ := readSections_presence E _ _ _ _ _ hread
  simp only [Option.isSome_none, Bool.false_eq_true, false_or] at hl ht
  rw [FromBinary_of_header E data h32 hmagic hver, hread]
  constructor
  · intro h1 h2
    have hl1 : m.m_label_section.isSome = true := hl.2 h1
    have ht1 : m.m_text_section.isNone = true := by
      cases hts : m.m_text_section with
      | none => rfl
      | some ts => exact absurd (ht (by simp [hts])) h2
    have hl2 : m.m_label_section.isNone = false := by
      cases hls : m.m_label_section with
      | none => simp [hls] at hl1
      | some ls => rfl
    simp only [hl2, ht1, Bool.false_eq_true, if_false, if_true]
  · intro h1
    have hl1 : m.m_label_section.isNone = true := by
      cases hls : m.m_label_section with
      | none => rfl
      | some ls => exact absurd (hl.1 (by simp [hls])) h1
    simp only [hl1, if_true]

theorem readSections_add (E : Externals) (k j : Nat) (r : BinaryReader) (m : MSBT) :
    readSections E (k + j) r m =
      match readSections E k r m with
      | .error e => .error e
      | .ok (m1, r1) => readSections E j r1 m1 := by
  induction k generalizing r m with
  | zero => simp [readSections]
  | succ k ih =>
    have : k + 1 + j = (k + j) + 1 := by omega
    rw [this]
    simp only [readSections]
    cases hS : readSection E r m with
    | error e => rfl
    | ok p =>
      obtain ⟨m2, r2⟩ := p
      exact ih r2 m2

/-- C10. For a buffer with a valid header: if the section loop, after reading
`k` sections successfully (`k` below the declared section count), reads a section
header whose 4-byte magic is none of the label, attribute and text magics, the
constructor throws the error whose message is "Unsupported data block: "
followed by those four bytes as text; no container is returned. -/
theorem FromBinary_unknown_section (E : Externals) (data : List UInt8)
    (h32 : 32 ≤ data.length) (hmagic : data.take 8 = E.MsbtMagic)
    (hver : readLe16 data 12 = 0x301) (k : Nat) (hk : k < readLe16 data 14)
    (m : MSBT) (r r0 : BinaryReader) (bytes : List UInt8)
    (hprev : readSections E k ⟨data, 32⟩ ⟨none, none, none⟩ = .ok (m, r))
    (hhdr : r.Read SectionHeader.size = some (bytes, r0))
    (h1 : bytes.take 4 ≠ E.LabelSectionMagic) (h2 : bytes.take 4 ≠ E.AttributeSectionMagic)
    (h3 : bytes.take 4 ≠ E.TextSectionMagic) :
    FromBinary E data
      = .error (.InvalidDataError ("Unsupported data block: " ++ magicText (bytes.take 4))) := by
  obtain ⟨j, hj⟩ : ∃ j, readLe16 data 14 = k + (j + 1) := ⟨readLe16 data 14 - k - 1, by omega⟩
  rw [FromBinary_of_header E data h32 hmagic hver, hj, readSections_add, hprev]
  simp only [readSections, readSection_unknown E r r0 m bytes hhdr h1 h2 h3]


/-- The bad-magic failure at a header with the signature `MsgStdBX` and version `0x301`. -/
theorem FromBinary_bad_magic_witness :
    32 ≤ badMagicBuffer.length ∧ badMagicBuffer.take 8 ≠ sampleExternals.MsbtMagic ∧
      readLe16 badMagicBuffer 12 = 0x301 ∧
      FromBinary sampleExternals badMagicBuffer
        = .error (.InvalidDataError "Invalid MSBT magic") :=
  ⟨by decide, by decide, by decide,
    FromBinary_bad_magic sampleExternals badMagicBuffer (by decide) (by decide)⟩

/-- The version failure at a header with the right signature and version `0x300`. -/
theorem FromBinary_version_witness :
    32 ≤ oldVersionBuffer.length ∧ oldVersionBuffer.take 8 = sampleExternals.MsbtMagic ∧
      readLe16 oldVersionBuffer 12 = 0x300 ∧
      FromBinary sampleExternals oldVersionBuffer
        = .error (.InvalidDataError "Only MSBT version 3.0.1 is supported") :=
  ⟨by decide, by decide, by decide,
    (FromBinary_version sampleExternals oldVersionBuffer (by decide) (by decide)).2
      (by decide)⟩

set_option maxRecDepth 100000 in
/-- The missing-section failure at the serialization of a model that has a label
section only, and at that of the model without sections. -/
theorem FromBinary_missing_section_witness :
    (readSections sampleExternals 1 ⟨ToBinary sampleExternals labelOnlyModel, 32⟩
        ⟨none, none, none⟩
        = .ok (labelOnlyModel, ⟨ToBinary sampleExternals labelOnlyModel, 64⟩) ∧
      sectionMagics sampleExternals 1 ⟨ToBinary sampleExternals labelOnlyModel, 32⟩
        ⟨none, none, none⟩ = [sampleExternals.LabelSectionMagic] ∧
      FromBinary sampleExternals (ToBinary sampleExternals labelOnlyModel)
        = .error (.InvalidDataError "The text section (TXT2) was not found")) ∧
    (readSections sampleExternals 0 ⟨ToBinary sampleExternals ⟨none, none, none⟩, 32⟩
        ⟨none, none, none⟩
        = .ok (⟨none, none, none⟩, ⟨ToBinary sampleExternals ⟨none, none, none⟩, 32⟩) ∧
      FromBinary sampleExternals (ToBinary sampleExternals ⟨none, none, none⟩)
        = .error (.InvalidDataError "The label section (LBL1) was not found")) :=
  ⟨⟨by decide, by decide,
    (FromBinary_missing_section sampleExternals (ToBinary sampleExternals labelOnlyModel)
      (by decide) (by decide) (by decide) labelOnlyModel
      ⟨ToBinary sampleExternals labelOnlyModel, 64⟩ (by decide)).1 (by decide) (by decide)⟩,
   ⟨by decide,
    (FromBinary_missing_section sampleExternals (ToBinary sampleExternals ⟨none, none, none⟩)
      (by decide) (by decide) (by decide) ⟨none, none, none⟩
      ⟨ToBinary sampleExternals ⟨none, none, none⟩, 32⟩ (by decide)).2 (by decide)⟩⟩

set_option maxRecDepth 100000 in
/-- The unknown-section failure at a buffer whose only section header has the magic
`XXXX`. -/
theorem FromBinary_unknown_section_witness :
    32 ≤ unknownSectionBuffer.length ∧
      (BinaryReader.mk unknownSectionBuffer 32).Read SectionHeader.size
        = some (sampleImage (charBytes "XXXX".toList) [], ⟨unknownSectionBuffer, 48⟩) ∧
      FromBinary sampleExternals unknownSectionBuffer
        = .error (.InvalidDataError "Unsupported data block: XXXX") :=
  ⟨by decide, by decide,
    FromBinary_unknown_section sampleExternals unknownSectionBuffer (by decide) (by decide)
      (by decide) 0 (by decide) ⟨none, none, none⟩ ⟨unknownSectionBuffer, 32⟩
      ⟨unknownSectionBuffer, 48⟩ (sampleImage (charBytes "XXXX".toList) []) (by decide)
      (by decide) (by decide) (by decide) (by decide)⟩


/-! ## The writer and the layout of the output of `ToBinary` -/

theorem alignUp_16 (v : Nat) : alignUp v 16 % 16 = 0 ∧ v ≤ alignUp v 16 ∧ alignUp v 16 < v + 16 := by
  unfold alignUp
  omega

theorem alignUp_add_16 (o len : Nat) (ho : o % 16 = 0) :
    alignUp (o + len) 16 = o + len + (16 - len % 16) % 16 := by
  unfold alignUp
  omega

theorem GrowBuffer_data (w : BinaryWriter) :
    w.GrowBuffer.m_data = w.m_data ++ List.replicate (w.m_offset - w.m_data.length) 0 := by
  unfold BinaryWriter.GrowBuffer
  split
  · rfl
  · have : w.m_offset - w.m_data.length = 0 := by omega
    simp [this]

theorem WriteBytes_at_end (w : BinaryWriter) (img : List UInt8)
    (h : w.m_data.length ≤ w.m_offset) :
    (w.WriteBytes img).m_data = w.GrowBuffer.m_data ++ img := by
  rw [GrowBuffer_data]
  unfold BinaryWriter.WriteBytes
  simp only
  split
  · rename_i hgt
    have e1 : w.m_offset + img.length - w.m_data.length
        = (w.m_offset - w.m_data.length) + img.length := by omega
    rw [e1, List.replicate_add, ← List.append_assoc]
    have hlen : (w.m_data ++ List.replicate (w.m_offset - w.m_data.length) (0 : UInt8)).length
        = w.m_offset := by simp; omega
    rw [List.take_append_of_le_length (by omega), List.take_of_length_le (by omega)]
    rw [List.drop_of_length_le (by simp; omega)]
    simp
  · rename_i hle
    have h1 : img.length = 0 := by omega
    have h2 : w.m_offset = w.m_data.length := by omega
    have h3 : img = [] := List.length_eq_zero.1 h1
    subst h3
    simp [h2]

theorem writeSection_step (w : BinaryWriter) (img : List UInt8)
    (h1 : w.m_data.length ≤ w.m_offset) (h2 : w.m_offset % 16 = 0) :
    (writeSection w img).m_data.length ≤ (writeSection w img).m_offset ∧
      (writeSection w img).m_offset % 16 = 0 ∧
      (writeSection w img).m_offset = w.m_offset + (padded img).length ∧
      (writeSection w img).GrowBuffer.m_data = w.GrowBuffer.m_data ++ padded img := by
  have hd : (writeSection w img).m_data = w.GrowBuffer.m_data ++ img := by
    simp only [writeSection, BinaryWriter.AlignUp, BinaryWriter.Seek]
    exact WriteBytes_at_end w img h1
  have ho : (writeSection w img).m_offset = alignUp (w.m_offset + img.length) 16 := by
    simp [writeSection, BinaryWriter.AlignUp, BinaryWriter.Seek, BinaryWriter.Tell,
      BinaryWriter.WriteBytes]
  have hg : w.GrowBuffer.m_data.length = w.m_offset := by
    rw [GrowBuffer_data]; simp; omega
  have ha := alignUp_16 (w.m_offset + img.length)
  have hb := alignUp_add_16 w.m_offset img.length h2
  have hp : (padded img).length = img.length + (16 - img.length % 16) % 16 := by
    simp [padded]
  refine ⟨?_, ?_, ?_, ?_⟩
  · rw [hd, ho]; simp [hg]; omega
  · rw [ho]; exact ha.1
  · rw [ho, hb, hp]; omega
  · rw [GrowBuffer_data (writeSection w img), hd, ho, hb]
    simp only [List.length_append, hg, padded, List.append_assoc]
    congr 3
    omega

theorem writeSections_fold (images : List (List UInt8)) (w : BinaryWriter)
    (h1 : w.m_data.length ≤ w.m_offset) (h2 : w.m_offset % 16 = 0) :
    (images.foldl writeSection w).m_data.length ≤ (images.foldl writeSection w).m_offset ∧
      (images.foldl writeSection w).m_offset % 16 = 0 ∧
      (images.foldl writeSection w).m_offset = w.m_offset + (images.flatMap padded).length ∧
      (images.foldl writeSection w).GrowBuffer.m_data
        = w.GrowBuffer.m_data ++ images.flatMap padded := by
  induction images generalizing w with
  | nil => simp [h1, h2]
  | cons img rest ih =>
    obtain ⟨a, b, c, d⟩ := writeSection_step w img h1 h2
    obtain ⟨a2, b2, c2, d2⟩ := ih (writeSection w img) a b
    simp only [List.foldl_cons, List.flatMap_cons, List.length_append]
    refine ⟨a2, b2, ?_, ?_⟩
    · rw [c2, c]; omega
    · rw [d2, d]; simp


theorem Header_toBytes_length (h : Header) (hm : h.magic.length = 8)
    (hp : h._padding_3.length = 10) : h.toBytes.length = 32 := by
  simp [Header.toBytes, le16, le32, hm, hp]

theorem write_header (data hdr : List UInt8) (o : Nat) (h1 : 32 ≤ data.length)
    (h2 : hdr.length = 32) :
    (((BinaryWriter.mk data o).Seek 0).WriteBytes hdr).Finalize = hdr ++ data.drop 32 := by
  have : ¬ (0 + hdr.length > data.length) := by omega
  unfold BinaryWriter.Seek BinaryWriter.WriteBytes BinaryWriter.Finalize
  simp only [this, if_false, List.take_zero, List.nil_append, Nat.zero_add, h2]
  have h3 : ¬ (32 > data.length) := by omega
  rw [if_neg h3]

theorem ToBinary_fold (E : Externals) (m : MSBT) :
    ToBinary E m =
      (((((sectionImages E m).foldl writeSection ⟨[], 32⟩).GrowBuffer).Seek 0).WriteBytes
        (Header.toBytes ⟨E.MsbtMagic, 0xFEFF, 0, 0x301, (sectionImages E m).length % 2 ^ 16, 0,
          (((sectionImages E m).foldl writeSection ⟨[], 32⟩).GrowBuffer).Buffer.length % 2 ^ 32,
          List.replicate 10 0⟩)).Finalize := by
  obtain ⟨l, a, t⟩ := m
  cases l <;> cases a <;> cases t <;> rfl

/-- The output of `ToBinary`: the 32 bytes of the header, then the padded images
of the sections that are present, in the order label, attribute, text. -/
theorem ToBinary_eq (E : Externals) (m : MSBT) :
    ToBinary E m = (outputHeader E m).toBytes ++ (sectionImages E m).flatMap padded := by
  obtain ⟨h1, h2, h3, h4⟩ := writeSections_fold (sectionImages E m) ⟨[], 32⟩
    (by simp) (by simp)
  have h0 : (BinaryWriter.mk [] 32).GrowBuffer.m_data = List.replicate 32 0 := by
    rw [GrowBuffer_data]; simp
  rw [h0] at h4
  rw [ToBinary_fold]
  generalize (sectionImages E m).foldl writeSection ⟨[], 32⟩ = w at h1 h2 h3 h4
  have hlen : w.GrowBuffer.Buffer.length = 32 + ((sectionImages E m).flatMap padded).length := by
    rw [BinaryWriter.Buffer, h4, List.length_append, List.length_replicate]
  rw [hlen]
  have hw : w.GrowBuffer = ⟨w.GrowBuffer.m_data, w.GrowBuffer.m_offset⟩ := rfl
  rw [hw, write_header _ _ _ (by rw [h4, List.length_append, List.length_replicate]; omega)
    (Header_toBytes_length _ E.MsbtMagic_size (by simp))]
  rw [h4, List.drop_append_of_le_length (by simp), List.drop_of_length_le (by simp)]
  rfl

theorem ToBinary_length (E : Externals) (m : MSBT) :
    (ToBinary E m).length = 32 + ((sectionImages E m).flatMap padded).length := by
  rw [ToBinary_eq, List.length_append,
    Header_toBytes_length _ E.MsbtMagic_size (by simp [outputHeader])]


theorem byteAt_append_right (pre rest : List UInt8) (n k : Nat) (h : pre.length = n) :
    byteAt (pre ++ rest) (n + k) = byteAt rest k := by
  subst h
  simp [byteAt, List.getD_eq_getElem?_getD, List.getElem?_append_right]

theorem toNat_ofNat_mod (v : Nat) : (UInt8.ofNat (v % 256)).toNat = v % 256 := by
  show v % 256 % 256 = v % 256
  omega

theorem Header_fields_of_toBytes (h : Header) (hm : h.magic.length = 8) (body : List UInt8) :
    (h.toBytes ++ body).take 8 = h.magic ∧
      readLe16 (h.toBytes ++ body) 8 = h.bom % 2 ^ 16 ∧
      readLe16 (h.toBytes ++ body) 10 = h._padding_1 % 2 ^ 16 ∧
      readLe16 (h.toBytes ++ body) 12 = h.version % 2 ^ 16 ∧
      readLe16 (h.toBytes ++ body) 14 = h.num_sections % 2 ^ 16 ∧
      readLe16 (h.toBytes ++ body) 16 = h._padding_2 % 2 ^ 16 ∧
      readLe32 (h.toBytes ++ body) 18 = h.file_size % 2 ^ 32 := by
  have e : h.toBytes ++ body = h.magic ++ (le16 h.bom ++ le16 h._padding_1 ++ le16 h.version ++
      le16 h.num_sections ++ le16 h._padding_2 ++ le32 h.file_size ++ h._padding_3 ++ body) := by
    simp [Header.toBytes]
  have b : ∀ k, byteAt (h.toBytes ++ body) (8 + k) = byteAt (le16 h.bom ++ le16 h._padding_1 ++
      le16 h.version ++ le16 h.num_sections ++ le16 h._padding_2 ++ le32 h.file_size ++
      h._padding_3 ++ body) k := by
    intro k; rw [e]; exact byteAt_append_right _ _ 8 k hm
  refine ⟨?_, ?_, ?_, ?_, ?_, ?_, ?_⟩
  · rw [e, ← hm, List.take_left]
  · have h0 : byteAt (h.toBytes ++ body) 8 = _ := b 0
    have h1 : byteAt (h.toBytes ++ body) (8 + 1) = _ := b 1
    rw [readLe16, h0, h1]
    simp only [byteAt, le16, le32, List.cons_append, List.nil_append,
      List.getD_cons_zero, List.getD_cons_succ, toNat_ofNat_mod]
    omega
  · have h0 : byteAt (h.toBytes ++ body) 10 = _ := b 2
    have h1 : byteAt (h.toBytes ++ body) (10 + 1) = _ := b 3
    rw [readLe16, h0, h1]
    simp only [byteAt, le16, le32, List.cons_append, List.nil_append,
      List.getD_cons_zero, List.getD_cons_succ, toNat_ofNat_mod]
    omega
  · have h0 : byteAt (h.toBytes ++ body) 12 = _ := b 4
    have h1 : byteAt (h.toBytes ++ body) (12 + 1) = _ := b 5
    rw [readLe16, h0, h1]
    simp only [byteAt, le16, le32, List.cons_append, List.nil_append,
      List.getD_cons_zero, List.getD_cons_succ, toNat_ofNat_mod]
    omega
  · have h0 : byteAt (h.toBytes ++ body) 14 = _ := b 6
    have h1 : byteAt (h.toBytes ++ body) (14 + 1) = _ := b 7
    rw [readLe16, h0, h1]
    simp only [byteAt, le16, le32, List.cons_append, List.nil_append,
      List.getD_cons_zero, List.getD_cons_succ, toNat_ofNat_mod]
    omega
  · have h0 : byteAt (h.toBytes ++ body) 16 = _ := b 8
    have h1 : byteAt (h.toBytes ++ body) (16 + 1) = _ := b 9
    rw [readLe16, h0, h1]
    simp only [byteAt, le16, le32, List.cons_append, List.nil_append,
      List.getD_cons_zero, List.getD_cons_succ, toNat_ofNat_mod]
    omega
  · have h0 : byteAt (h.toBytes ++ body) 18 = _ := b 10
    have h1 : byteAt (h.toBytes ++ body) (18 + 1) = _ := b 11
    have h2 : byteAt (h.toBytes ++ body) (18 + 2) = _ := b 12
    have h3 : byteAt (h.toBytes ++ body) (18 + 3) = _ := b 13
    rw [readLe32, h0, h1, h2, h3]
    simp only [byteAt, le16, le32, List.cons_append, List.nil_append,
      List.getD_cons_zero, List.getD_cons_succ, toNat_ofNat_mod]
    omega

theorem sectionImages_length_le (E : Externals) (m : MSBT) : (sectionImages E m).length ≤ 3 := by
  obtain ⟨l, a, t⟩ := m
  cases l <;> cases a <;> cases t <;> simp [sectionImages]

theorem ToBinary_num_sections (E : Externals) (m : MSBT) :
    readLe16 (ToBinary E m) 14 = (sectionImages E m).length := by
  have h := (Header_fields_of_toBytes (outputHeader E m) E.MsbtMagic_size
    ((sectionImages E m).flatMap padded)).2.2.2.2.1
  have h3 := sectionImages_length_le E m
  rw [ToBinary_eq, h]
  simp only [outputHeader]
  omega

theorem ToBinary_file_size (E : Externals) (m : MSBT) :
    readLe32 (ToBinary E m) 18 = (ToBinary E m).length % 2 ^ 32 := by
  have h := (Header_fields_of_toBytes (outputHeader E m) E.MsbtMagic_size
    ((sectionImages E m).flatMap padded)).2.2.2.2.2.2
  rw [ToBinary_length, ToBinary_eq, h]
  simp only [outputHeader]
  omega


/-- C4 (amended). For every model whose serialized buffer is shorter than
`2 ^ 32` bytes, the 4-byte little-endian total-file-size field of the header
(offset 18) in the buffer returned by `ToBinary` equals the length of that
buffer. -/
theorem ToBinary_file_size_field (E : Externals) (m : MSBT)
    (h : (ToBinary E m).length < 2 ^ 32) :
    readLe32 (ToBinary E m) 18 = (ToBinary E m).length := by
  rw [ToBinary_file_size]
  exact Nat.mod_eq_of_lt h

set_option maxRecDepth 100000 in
/-- The size field at the two-entry model, whose buffer has 112 bytes. -/
theorem ToBinary_file_size_field_witness :
    (ToBinary sampleExternals twoEntryModel).length = 112 ∧
      readLe32 (ToBinary sampleExternals twoEntryModel) 18
        = (ToBinary sampleExternals twoEntryModel).length :=
  ⟨by decide, ToBinary_file_size_field sampleExternals twoEntryModel (by decide)⟩

theorem longBodyModel_length (n : Nat) :
    (ToBinary sampleExternals (longBodyModel n)).length
      = 64 + (n + 24 + (16 - (n + 24) % 16) % 16) := by
  rw [ToBinary_length]
  simp only [longBodyModel, sectionImages, sampleExternals, Option.map_some', Option.map_none',
    Option.toList_some, Option.toList_none, List.append_nil, List.singleton_append,
    List.flatMap_cons, List.flatMap_nil, List.length_append, padded, sampleImage, le32,
    sampleString, charBytes, List.length_map, List.length_replicate, List.length_cons,
    List.length_nil, String.toList]
  omega

/-- C4 (as stated) fails. With the sample section encoding, the model with one
label and one body of `2 ^ 32` characters serializes to `2 ^ 32 + 96` bytes,
while the total-file-size field of the header, a `u32`, holds 96. -/
theorem ToBinary_file_size_wraps :
    (ToBinary sampleExternals hugeModel).length = 2 ^ 32 + 96 ∧
      readLe32 (ToBinary sampleExternals hugeModel) 18 = 96 ∧
      readLe32 (ToBinary sampleExternals hugeModel) 18
        ≠ (ToBinary sampleExternals hugeModel).length := by
  have hlen : (ToBinary sampleExternals hugeModel).length = 2 ^ 32 + 96 := by
    unfold hugeModel
    rw [longBodyModel_length]
    norm_num
  have hfield : readLe32 (ToBinary sampleExternals hugeModel) 18 = 96 := by
    rw [ToBinary_file_size, hlen]
    norm_num
  refine ⟨hlen, hfield, ?_⟩
  rw [hfield, hlen]
  norm_num

theorem padded_length (img : List UInt8) :
    (padded img).length % 16 = 0 ∧ (padded img).take img.length = img := by
  constructor
  · simp only [padded, List.length_append, List.length_replicate]
    omega
  · simp [padded]

theorem ToBinary_drop_header (E : Externals) (m : MSBT) :
    (ToBinary E m).drop 32 = (sectionImages E m).flatMap padded := by
  rw [ToBinary_eq]
  have := Header_toBytes_length (outputHeader E m) E.MsbtMagic_size (by simp [outputHeader])
  rw [← this, List.drop_left]

/-- The section that comes after the sections `before` lies, with its padding, at
offset `32 + (total padded length of before)` of the output, a multiple of 16. -/
theorem ToBinary_section_at (E : Externals) (m : MSBT) (before after : List (List UInt8))
    (img : List UInt8) (h : sectionImages E m = before ++ img :: after) :
    (before.foldl writeSection ((BinaryWriter.mk [] 0).Seek Header.size)).Tell
        = 32 + (before.flatMap padded).length ∧
      (32 + (before.flatMap padded).length) % 16 = 0 ∧
      ((ToBinary E m).drop (32 + (before.flatMap padded).length)).take (padded img).length
        = padded img := by
  obtain ⟨_, f2, f3, _⟩ := writeSections_fold before ⟨[], 32⟩ (by simp) (by simp)
  refine ⟨f3, ?_, ?_⟩
  · have e : 32 + (before.flatMap padded).length
        = (before.foldl writeSection ⟨[], 32⟩).m_offset := by rw [f3]
    rw [e]; exact f2
  · rw [← List.drop_drop, ToBinary_drop_header, h, List.flatMap_append, List.drop_left,
      List.flatMap_cons, List.take_left]

/-- C5. In the buffer that `ToBinary` returns, what follows the 32-byte header
is the sequence of the section images (label, attribute, text: those present),
each followed by zero padding up to a multiple of 16 bytes. Hence every section
begins at a multiple of 16: the section `img` that comes after the sections
`before` begins at offset `32 + (total padded length of before)`, which is the
position of the writer when that section is written, is a multiple of 16 (32 for
the first section), and the bytes of the buffer from that offset are the section
image and its padding. -/
theorem ToBinary_alignment (E : Externals) (m : MSBT) (before after : List (List UInt8))
    (img : List UInt8) (h : sectionImages E m = before ++ img :: after) :
    (ToBinary E m).drop 32 = (sectionImages E m).flatMap padded ∧
      (before.foldl writeSection ((BinaryWriter.mk [] 0).Seek Header.size)).Tell
        = 32 + (before.flatMap padded).length ∧
      (32 + (before.flatMap padded).length) % 16 = 0 ∧
      (before = [] → 32 + (before.flatMap padded).length = 32) ∧
      ((ToBinary E m).drop (32 + (before.flatMap padded).length)).take (padded img).length
        = padded img ∧
      (padded img).take img.length = img ∧
      (padded img).length % 16 = 0 := by
  obtain ⟨f1, f2, f3⟩ := ToBinary_section_at E m before after img h
  refine ⟨ToBinary_drop_header E m, f1, f2, ?_, f3, (padded_length img).2,
    (padded_length img).1⟩
  intro hb; subst hb; rfl

set_option maxRecDepth 100000 in
/-- The alignment at the two-entry model: its text section begins at offset 80. -/
theorem ToBinary_alignment_witness :
    sectionImages sampleExternals twoEntryModel
        = [sampleExternals.labelSectionBytes ⟨[(0, "A".toList), (1, "B".toList)]⟩]
          ++ sampleExternals.textSectionBytes ⟨[⟨"x".toList⟩, ⟨"y".toList⟩]⟩ :: [] ∧
      32 + (([sampleExternals.labelSectionBytes ⟨[(0, "A".toList), (1, "B".toList)]⟩]).flatMap
        padded).length = 80 ∧
      ((ToBinary sampleExternals twoEntryModel).drop 80).take 4 = charBytes "TXT2".toList ∧
      (32 + (([sampleExternals.labelSectionBytes ⟨[(0, "A".toList), (1, "B".toList)]⟩]).flatMap
        padded).length) % 16 = 0 :=
  ⟨by decide, by decide, by decide,
    (ToBinary_alignment sampleExternals twoEntryModel
      [sampleExternals.labelSectionBytes ⟨[(0, "A".toList), (1, "B".toList)]⟩] []
      (sampleExternals.textSectionBytes ⟨[⟨"x".toList⟩, ⟨"y".toList⟩]⟩) (by decide)).2.2.1⟩

theorem FromText_sections (fuel : Nat) (src : List Char) (m : MSBT)
    (h : FromText fuel src = .ok m) :
    m.m_label_section.isSome = true ∧ m.m_attribute_section = none ∧
      m.m_text_section.isSome = true := by
  unfold FromText at h
  split at h
  · simp at h
  · simp only at h
    split at h
    · simp at h
    · simp only [Except.ok.injEq] at h
      subst h
      simp

/-- C6. `ToBinary` writes the sections that are present in the order label,
attribute, text (what follows the header is their padded images in that order),
and the 16-bit section-count field of the header (offset 14) is the number of
sections written. A model built by the text constructor has a label and a text
section and no attribute section, so its section count is 2; so is that of the
two-entry model `[(0, "A", "x"), (1, "B", "y")]`. -/
theorem ToBinary_section_count (E : Externals) (m : MSBT) :
    (ToBinary E m).drop 32
        = ((m.m_label_section.map E.labelSectionBytes).toList ++
            (m.m_attribute_section.map E.attributeSectionBytes).toList ++
            (m.m_text_section.map E.textSectionBytes).toList).flatMap padded ∧
      readLe16 (ToBinary E m) 14
        = (if m.m_label_section.isSome then 1 else 0) +
            (if m.m_attribute_section.isSome then 1 else 0) +
            (if m.m_text_section.isSome then 1 else 0) ∧
      (∀ fuel src, FromText fuel src = .ok m → readLe16 (ToBinary E m) 14 = 2) ∧
      readLe16 (ToBinary E twoEntryModel) 14 = 2 := by
  have hcount : ∀ m : MSBT, readLe16 (ToBinary E m) 14
      = (if m.m_label_section.isSome then 1 else 0) +
          (if m.m_attribute_section.isSome then 1 else 0) +
          (if m.m_text_section.isSome then 1 else 0) := by
    intro m
    rw [ToBinary_num_sections]
    obtain ⟨l, a, t⟩ := m
    cases l <;> cases a <;> cases t <;> simp [sectionImages]
  refine ⟨?_, hcount m, ?_, ?_⟩
  · rw [ToBinary_drop_header]
    rfl
  · intro fuel src h
    obtain ⟨h1, h2, h3⟩ := FromText_sections fuel src m h
    rw [hcount m, h1, h2, h3]
    rfl
  · rw [hcount]
    rfl

/-- The section count at the model that the text constructor builds from the
document of the two-entry model. -/
theorem ToBinary_section_count_witness :
    FromText 2 "A: |-\n  x\nB: |-\n  y\n".toList = .ok twoEntryModel ∧
      readLe16 (ToBinary sampleExternals twoEntryModel) 14 = 2 :=
  ⟨by rfl, (ToBinary_section_count sampleExternals twoEntryModel).2.2.1 2
    "A: |-\n  x\nB: |-\n  y\n".toList (by rfl)⟩


/-! ## Re-reading the output of `ToBinary` -/

theorem Read_section_header (data P : List UInt8) (o : Nat)
    (h : (data.drop o).take P.length = P) (h16 : 16 ≤ P.length) :
    (BinaryReader.mk data o).Read SectionHeader.size = some (P.take 16, ⟨data, o + 16⟩) := by
  have hlen := congrArg List.length h
  simp only [List.length_take, List.length_drop] at hlen
  have h1 : ¬ (o + 16 > data.length) := by omega
  have h2 : (data.drop o).take 16 = P.take 16 := by
    rw [← h, List.take_take]
    congr 1
    omega
  simp only [BinaryReader.Read, SectionHeader.size, h1, if_false, h2]

theorem padded_take (img : List UInt8) (k : Nat) (h : k ≤ img.length) :
    (padded img).take k = img.take k := by
  simp only [padded]
  exact List.take_append_of_le_length h

theorem reader_after (data : List UInt8) (o off : Nat) :
    ((BinaryReader.mk data o).Seek off).Seek (alignUp ((BinaryReader.mk data o).Seek off).Tell 0x10)
      = ⟨data, alignUp off 16⟩ := rfl

theorem readSection_label_back (E : Externals) (s : LabelSection) (hs : LabelReadsBack E s)
    (data : List UInt8) (o : Nat) (ho : o % 16 = 0) (m : MSBT)
    (h : (data.drop o).take (padded (E.labelSectionBytes s)).length
      = padded (E.labelSectionBytes s)) :
    ∃ s1, E.labelSectionBytes s1 = E.labelSectionBytes s ∧
      readSection E ⟨data, o⟩ m
        = .ok (⟨some s1, m.m_attribute_section, m.m_text_section⟩,
            ⟨data, o + (padded (E.labelSectionBytes s)).length⟩) := by
  obtain ⟨hmagic, h16, hread⟩ := hs
  obtain ⟨s1, off, hr, hb, ha⟩ := hread data o ho h
  have hP : 16 ≤ (padded (E.labelSectionBytes s)).length := by
    simp only [padded, List.length_append]; omega
  have hR := Read_section_header data _ o h hP
  rw [padded_take _ 16 h16] at hR
  have hm : ((E.labelSectionBytes s).take 16).take 4 = E.LabelSectionMagic := by
    rw [List.take_take]; simpa using hmagic
  refine ⟨s1, hb, ?_⟩
  rw [readSection_label E _ _ m _ hR hm]
  simp only at hr
  rw [hr]
  simp only [reader_after, ha]

theorem readSection_attribute_back (E : Externals) (s : AttributeSection)
    (hs : AttributeReadsBack E s) (data : List UInt8) (o : Nat) (ho : o % 16 = 0) (m : MSBT)
    (h : (data.drop o).take (padded (E.attributeSectionBytes s)).length
      = padded (E.attributeSectionBytes s)) :
    ∃ s1, E.attributeSectionBytes s1 = E.attributeSectionBytes s ∧
      readSection E ⟨data, o⟩ m
        = .ok (⟨m.m_label_section, some s1, m.m_text_section⟩,
            ⟨data, o + (padded (E.attributeSectionBytes s)).length⟩) := by
  obtain ⟨hne, hmagic, h16, hread⟩ := hs
  obtain ⟨s1, off, hr, hb, ha⟩ := hread data o ho h
  have hP : 16 ≤ (padded (E.attributeSectionBytes s)).length := by
    simp only [padded, List.length_append]; omega
  have hR := Read_section_header data _ o h hP
  rw [padded_take _ 16 h16] at hR
  have hm : ((E.attributeSectionBytes s).take 16).take 4 = E.AttributeSectionMagic := by
    rw [List.take_take]; simpa using hmagic
  refine ⟨s1, hb, ?_⟩
  rw [readSection_attribute E _ _ m _ hR (by rw [hm]; exact hne) hm]
  simp only at hr
  rw [hr]
  simp only [reader_after, ha]

theorem readSection_text_back (E : Externals) (s : TextSection) (hs : TextReadsBack E s)
    (data : List UInt8) (o : Nat) (ho : o % 16 = 0) (m : MSBT)
    (h : (data.drop o).take (padded (E.textSectionBytes s)).length
      = padded (E.textSectionBytes s)) :
    ∃ s1, E.textSectionBytes s1 = E.textSectionBytes s ∧
      readSection E ⟨data, o⟩ m
        = .ok (⟨m.m_label_section, m.m_attribute_section, some s1⟩,
            ⟨data, o + (padded (E.textSectionBytes s)).length⟩) := by
  obtain ⟨hne1, hne2, hmagic, h16, hread⟩ := hs
  obtain ⟨s1, off, hr, hb, ha⟩ := hread data o ho h
  have hP : 16 ≤ (padded (E.textSectionBytes s)).length := by
    simp only [padded, List.length_append]; omega
  have hR := Read_section_header data _ o h hP
  rw [padded_take _ 16 h16] at hR
  have hm : ((E.textSectionBytes s).take 16).take 4 = E.TextSectionMagic := by
    rw [List.take_take]; simpa using hmagic
  refine ⟨s1, hb, ?_⟩
  rw [readSection_text E _ _ m _ hR (by rw [hm]; exact hne1) (by rw [hm]; exact hne2) hm]
  simp only at hr
  rw [hr]
  simp only [reader_after, ha]


theorem FromBinary_ok_sections (E : Externals) (data : List UInt8) (m : MSBT)
    (h : FromBinary E data = .ok m) :
    m.m_label_section.isSome = true ∧ m.m_text_section.isSome = true := by
  unfold FromBinary at h
  split at h
  · simp at h
  · simp only at h
    split at h
    · simp at h
    · split at h
      · simp at h
      · split at h
        · simp at h
        · split at h
          · simp at h
          · split at h
            · simp at h
            · rename_i hl ht
              simp only [Except.ok.injEq] at h
              subst h
              constructor
              · cases hx : (_ : MSBT).m_label_section with
                | none => simp [hx] at hl
                | some v => rfl
              · cases hx : (_ : MSBT).m_text_section with
                | none => simp [hx] at ht
                | some v => rfl

theorem ToBinary_header_valid (E : Externals) (m : MSBT) :
    32 ≤ (ToBinary E m).length ∧ (ToBinary E m).take 8 = E.MsbtMagic ∧
      readLe16 (ToBinary E m) 12 = 0x301 := by
  have hf := Header_fields_of_toBytes (outputHeader E m) E.MsbtMagic_size
    ((sectionImages E m).flatMap padded)
  refine ⟨?_, ?_, ?_⟩
  · rw [ToBinary_length]; omega
  · rw [ToBinary_eq, hf.1]; rfl
  · rw [ToBinary_eq, hf.2.2.2.1]; rfl

theorem ToBinary_congr (E : Externals) (m m1 : MSBT)
    (h : sectionImages E m1 = sectionImages E m) : ToBinary E m1 = ToBinary E m := by
  rw [ToBinary_eq, ToBinary_eq, outputHeader, outputHeader, h]

/-- Re-reading the output of `ToBinary` for a model with a label and a text
section whose sections satisfy the contract `ReadsBack`. -/
theorem FromBinary_ToBinary (E : Externals) (l : LabelSection) (a : Option AttributeSection)
    (t : TextSection) (hl : LabelReadsBack E l) (ha : ∀ s, a = some s → AttributeReadsBack E s)
    (ht : TextReadsBack E t) :
    ∃ m1, FromBinary E (ToBinary E ⟨some l, a, some t⟩) = .ok m1 ∧
      sectionImages E m1 = sectionImages E ⟨some l, a, some t⟩ := by
  obtain ⟨h32, hmagic, hver⟩ := ToBinary_header_valid E ⟨some l, a, some t⟩
  rw [FromBinary_of_header E _ h32 hmagic hver, ToBinary_num_sections]
  cases a with
  | none =>
    have himg : sectionImages E ⟨some l, none, some t⟩
        = [E.labelSectionBytes l, E.textSectionBytes t] := rfl
    obtain ⟨_, o1, p1⟩ := ToBinary_section_at E ⟨some l, none, some t⟩ []
      [E.textSectionBytes t] (E.labelSectionBytes l) himg
    obtain ⟨_, o2, p2⟩ := ToBinary_section_at E ⟨some l, none, some t⟩ [E.labelSectionBytes l]
      [] (E.textSectionBytes t) himg
    obtain ⟨l1, hl1, r1⟩ := readSection_label_back E l hl _ _ o1 ⟨none, none, none⟩ p1
    obtain ⟨t1, ht1, r2⟩ := readSection_text_back E t ht _ _
      (by simpa using o2) ⟨some l1, none, none⟩ (by simpa using p2)
    refine ⟨⟨some l1, none, some t1⟩, ?_, ?_⟩
    · simp only [List.flatMap_nil, List.length_nil, Nat.add_zero] at r1
      simp only [himg, List.length_cons, List.length_nil, readSections, r1, r2]
      rfl
    · simp only [sectionImages, Option.map_some', Option.map_none', hl1, ht1]
  | some a =>
    have himg : sectionImages E ⟨some l, some a, some t⟩
        = [E.labelSectionBytes l, E.attributeSectionBytes a, E.textSectionBytes t] := rfl
    obtain ⟨_, o1, p1⟩ := ToBinary_section_at E ⟨some l, some a, some t⟩ []
      [E.attributeSectionBytes a, E.textSectionBytes t] (E.labelSectionBytes l) himg
    obtain ⟨_, o2, p2⟩ := ToBinary_section_at E ⟨some l, some a, some t⟩
      [E.labelSectionBytes l] [E.textSectionBytes t] (E.attributeSectionBytes a) himg
    obtain ⟨_, o3, p3⟩ := ToBinary_section_at E ⟨some l, some a, some t⟩
      [E.labelSectionBytes l, E.attributeSectionBytes a] [] (E.textSectionBytes t) himg
    obtain ⟨l1, hl1, r1⟩ := readSection_label_back E l hl _ _ o1 ⟨none, none, none⟩ p1
    obtain ⟨a1, ha1, r2⟩ := readSection_attribute_back E a (ha a rfl) _ _
      (by simpa using o2) ⟨some l1, none, none⟩ (by simpa using p2)
    have o3' : (32 + (padded (E.labelSectionBytes l)).length +
        (padded (E.attributeSectionBytes a)).length) % 16 = 0 := by
      simp only [List.flatMap_cons, List.flatMap_nil, List.append_nil, List.length_append] at o3
      rw [Nat.add_assoc]; exact o3
    have p3' : ((ToBinary E ⟨some l, some a, some t⟩).drop
        (32 + (padded (E.labelSectionBytes l)).length +
          (padded (E.attributeSectionBytes a)).length)).take
        (padded (E.textSectionBytes t)).length = padded (E.textSectionBytes t) := by
      simp only [List.flatMap_cons, List.flatMap_nil, List.append_nil, List.length_append] at p3
      rw [Nat.add_assoc]; exact p3
    obtain ⟨t1, ht1, r3⟩ := readSection_text_back E t ht _ _ o3' ⟨some l1, some a1, none⟩ p3'
    refine ⟨⟨some l1, some a1, some t1⟩, ?_, ?_⟩
    · simp only [List.flatMap_nil, List.length_nil, Nat.add_zero] at r1
      simp only [List.flatMap_cons, List.flatMap_nil, List.append_nil] at r2
      simp only [himg, List.length_cons, List.length_nil, readSections, r1, r2, r3]
      rfl
    · simp only [sectionImages, Option.map_some', hl1, ha1, ht1]


/-- C3. For every buffer `C` that the binary constructor accepts, with model `M`:
when the sections of `M` satisfy the contract `ReadsBack` of the section classes,
the binary constructor accepts `B = ToBinary(M)`, and serializing the model it
returns gives `B` again, byte for byte. -/
theorem ToBinary_idempotent (E : Externals) (C : List UInt8) (M : MSBT)
    (hC : FromBinary E C = .ok M)
    (hl : ∀ s, M.m_label_section = some s → LabelReadsBack E s)
    (ha : ∀ s, M.m_attribute_section = some s → AttributeReadsBack E s)
    (ht : ∀ s, M.m_text_section = some s → TextReadsBack E s) :
    ∃ M1, FromBinary E (ToBinary E M) = .ok M1 ∧ ToBinary E M1 = ToBinary E M := by
  obtain ⟨h1, h2⟩ := FromBinary_ok_sections E C M hC
  obtain ⟨l, a, t⟩ := M
  cases l with
  | none => simp at h1
  | some l =>
    cases t with
    | none => simp at h2
    | some t =>
      obtain ⟨M1, hM1, himg⟩ := FromBinary_ToBinary E l a t (hl l rfl) ha (ht t rfl)
      exact ⟨M1, hM1, ToBinary_congr E _ M1 himg⟩

/-! ### The sample externals satisfy the contract -/

theorem readLe32_le32 (v : Nat) (rest : List UInt8) :
    readLe32 (le32 v ++ rest) 0 = v % 2 ^ 32 := by
  simp only [readLe32, byteAt, le32, List.cons_append, List.nil_append, Nat.zero_add,
    List.getD_cons_zero, List.getD_cons_succ, toNat_ofNat_mod]
  omega

theorem bytesChars_charBytes (s : List Char) (h : ∀ c ∈ s, c.toNat < 256) :
    bytesChars (charBytes s) = s := by
  induction s with
  | nil => rfl
  | cons c s ih =>
    have hc : c.toNat < 256 := h c (List.mem_cons_self _ _)
    have hs : ∀ d ∈ s, d.toNat < 256 := fun d hd => h d (List.mem_cons_of_mem _ hd)
    have e : (UInt8.ofNat c.toNat).toNat = c.toNat := by
      show c.toNat % 256 = c.toNat
      omega
    simp only [bytesChars, charBytes, List.map_cons, List.map_map] at ih ⊢
    rw [ih hs]
    simp [e, Char.ofNat_toNat]

theorem readSampleString_sampleString (s : List Char) (rest : List UInt8)
    (h : sampleEncodable s) : readSampleString (sampleString s ++ rest) = some (s, rest) := by
  obtain ⟨hlen, hc⟩ := h
  have h1 : readLe32 (sampleString s ++ rest) 0 = s.length := by
    rw [sampleString, List.append_assoc, readLe32_le32]
    exact Nat.mod_eq_of_lt hlen
  have h2 : (sampleString s ++ rest).length = 4 + s.length + rest.length := by
    simp [sampleString, le32, charBytes]
    omega
  have h3 : (sampleString s ++ rest).drop 4 = charBytes s ++ rest := by
    simp [sampleString, le32]
  have h4 : (charBytes s).length = s.length := by simp [charBytes]
  have h5 : (sampleString s ++ rest).drop (4 + s.length) = rest := by
    rw [← List.drop_drop, h3, ← h4, List.drop_left]
  unfold readSampleString
  rw [h1, h3, h5, if_pos (by omega), ← h4, List.take_left, bytesChars_charBytes s hc]

theorem readSampleLabels_encode (es : List (Nat × List Char)) (rest : List UInt8)
    (h : ∀ e ∈ es, e.1 < 2 ^ 32 ∧ sampleEncodable e.2) :
    readSampleLabels es.length
        (es.flatMap (fun e => le32 e.1 ++ sampleString e.2) ++ rest) = some (es, rest) := by
  induction es with
  | nil => simp [readSampleLabels]
  | cons e es ih =>
    obtain ⟨h1, h2⟩ := h e (List.mem_cons_self _ _)
    have hes : ∀ x ∈ es, x.1 < 2 ^ 32 ∧ sampleEncodable x.2 :=
      fun x hx => h x (List.mem_cons_of_mem _ hx)
    have e1 : (e :: es).flatMap (fun e => le32 e.1 ++ sampleString e.2) ++ rest
        = le32 e.1 ++ (sampleString e.2 ++
            (es.flatMap (fun e => le32 e.1 ++ sampleString e.2) ++ rest)) := by
      simp
    have e2 : 4 ≤ (le32 e.1 ++ (sampleString e.2 ++
        (es.flatMap (fun e => le32 e.1 ++ sampleString e.2) ++ rest))).length := by
      simp [le32]
    have e3 : (le32 e.1 ++ (sampleString e.2 ++
        (es.flatMap (fun e => le32 e.1 ++ sampleString e.2) ++ rest))).drop 4
        = sampleString e.2 ++ (es.flatMap (fun e => le32 e.1 ++ sampleString e.2) ++ rest) := by
      simp [le32]
    rw [e1, List.length_cons, readSampleLabels, if_pos e2, e3,
      readSampleString_sampleString _ _ h2]
    simp only
    rw [ih hes, readLe32_le32, Nat.mod_eq_of_lt h1]

theorem readSampleTexts_encode (es : List TextEntry) (rest : List UInt8)
    (h : ∀ e ∈ es, sampleEncodable e.body) :
    readSampleTexts es.length (es.flatMap (fun e => sampleString e.body) ++ rest)
      = some (es, rest) := by
  induction es with
  | nil => simp [readSampleTexts]
  | cons e es ih =>
    have h2 := h e (List.mem_cons_self _ _)
    have hes : ∀ x ∈ es, sampleEncodable x.body :=
      fun x hx => h x (List.mem_cons_of_mem _ hx)
    have e1 : (e :: es).flatMap (fun e => sampleString e.body) ++ rest
        = sampleString e.body ++ (es.flatMap (fun e => sampleString e.body) ++ rest) := by
      simp
    rw [e1, List.length_cons, readSampleTexts, readSampleString_sampleString _ _ h2]
    simp only
    rw [ih hes]


theorem window_split (data P : List UInt8) (o : Nat) (hP : 0 < P.length)
    (h : (data.drop o).take P.length = P) :
    data.drop o = P ++ data.drop (o + P.length) ∧ o + P.length ≤ data.length := by
  have hlen := congrArg List.length h
  simp only [List.length_take, List.length_drop] at hlen
  constructor
  · have := List.take_append_drop P.length (data.drop o)
    rw [h, List.drop_drop] at this
    exact this.symm
  · omega

theorem sampleImage_length (magic payload : List UInt8) (hm : magic.length = 4) :
    (sampleImage magic payload).length = 16 + payload.length := by
  simp [sampleImage, le32, hm]
  omega

/-- What a reader placed after the section header of a padded sample image
sees: the payload, the padding, and the rest of the buffer. -/
theorem sample_window (magic payload data : List UInt8) (o : Nat) (hm : magic.length = 4)
    (h : (data.drop o).take (padded (sampleImage magic payload)).length
      = padded (sampleImage magic payload)) :
    data.drop (o + 16) = payload ++
        (List.replicate ((16 - (sampleImage magic payload).length % 16) % 16) 0 ++
          data.drop (o + (padded (sampleImage magic payload)).length)) ∧
      o + (padded (sampleImage magic payload)).length ≤ data.length ∧
      (data.drop o).take 16 = (sampleImage magic payload).take 16 := by
  have hi := sampleImage_length magic payload hm
  have hP : 0 < (padded (sampleImage magic payload)).length := by
    simp only [padded, List.length_append]; omega
  obtain ⟨h1, h2⟩ := window_split data _ o hP h
  refine ⟨?_, h2, ?_⟩
  · rw [← List.drop_drop, h1]
    have e : padded (sampleImage magic payload)
        = (magic ++ le32 payload.length ++ List.replicate 8 0) ++ (payload ++
            List.replicate ((16 - (sampleImage magic payload).length % 16) % 16) 0) := by
      simp [padded, sampleImage]
    have e16 : (magic ++ le32 payload.length ++ List.replicate 8 (0 : UInt8)).length = 16 := by
      simp [le32, hm]
    rw [e, List.append_assoc, ← e16, List.drop_left]
    simp
  · have hpl : 16 ≤ (padded (sampleImage magic payload)).length := by
      simp only [padded, List.length_append]; omega
    rw [h1, List.take_append_of_le_length hpl, padded_take _ 16 (by omega)]

theorem sample_offset (imgLen o L padLen dataLen restLen : Nat) (ho : o % 16 = 0)
    (hpad : padLen = (16 - imgLen % 16) % 16) (hL : L = imgLen + padLen)
    (hrest : restLen = dataLen - (o + L)) (hle : o + L ≤ dataLen) :
    alignUp (dataLen - (padLen + restLen)) 16 = o + L := by
  have e : dataLen - (padLen + restLen) = o + imgLen := by omega
  rw [e, alignUp_add_16 o imgLen ho]
  omega

theorem sample_readLabel (data tail : List UInt8) (k : Nat) (s : LabelSection)
    (hn : s.m_label_entries.length < 2 ^ 32)
    (h : ∀ e ∈ s.m_label_entries, e.1 < 2 ^ 32 ∧ sampleEncodable e.2)
    (hdrop : data.drop k = (le32 s.m_label_entries.length ++
      s.m_label_entries.flatMap (fun e => le32 e.1 ++ sampleString e.2)) ++ tail) :
    sampleExternals.readLabelSection ⟨data, k⟩ = .ok (s, data.length - tail.length) := by
  show (if 4 ≤ (data.drop k).length then
      match readSampleLabels (readLe32 (data.drop k) 0) ((data.drop k).drop 4) with
      | none => Except.error "truncated label section"
      | some (entries, rest) => Except.ok (LabelSection.mk entries, data.length - rest.length)
    else Except.error "truncated label section") = _
  have e4 : 4 ≤ (data.drop k).length := by
    rw [hdrop]; simp [le32]
  have e0 : readLe32 (data.drop k) 0 = s.m_label_entries.length := by
    rw [hdrop, List.append_assoc, readLe32_le32, Nat.mod_eq_of_lt hn]
  have ed : (data.drop k).drop 4
      = s.m_label_entries.flatMap (fun e => le32 e.1 ++ sampleString e.2) ++ tail := by
    rw [hdrop]; simp [le32]
  rw [if_pos e4, e0, ed, readSampleLabels_encode _ _ h]

theorem sample_readText (data tail : List UInt8) (k size : Nat) (s : TextSection)
    (hn : s.m_text_entries.length < 2 ^ 32)
    (h : ∀ e ∈ s.m_text_entries, sampleEncodable e.body)
    (hdrop : data.drop k = (le32 s.m_text_entries.length ++
      s.m_text_entries.flatMap (fun e => sampleString e.body)) ++ tail) :
    sampleExternals.readTextSection ⟨data, k⟩ size = .ok (s, data.length - tail.length) := by
  show (if 4 ≤ (data.drop k).length then
      match readSampleTexts (readLe32 (data.drop k) 0) ((data.drop k).drop 4) with
      | none => Except.error "truncated text section"
      | some (entries, rest) => Except.ok (TextSection.mk entries, data.length - rest.length)
    else Except.error "truncated text section") = _
  have e4 : 4 ≤ (data.drop k).length := by
    rw [hdrop]; simp [le32]
  have e0 : readLe32 (data.drop k) 0 = s.m_text_entries.length := by
    rw [hdrop, List.append_assoc, readLe32_le32, Nat.mod_eq_of_lt hn]
  have ed : (data.drop k).drop 4
      = s.m_text_entries.flatMap (fun e => sampleString e.body) ++ tail := by
    rw [hdrop]; simp [le32]
  rw [if_pos e4, e0, ed, readSampleTexts_encode _ _ h]

theorem sample_label_reads_back (s : LabelSection) (hn : s.m_label_entries.length < 2 ^ 32)
    (h : ∀ e ∈ s.m_label_entries, e.1 < 2 ^ 32 ∧ sampleEncodable e.2) :
    LabelReadsBack sampleExternals s := by
  have hb : sampleExternals.labelSectionBytes s = sampleImage (charBytes "LBL1".toList)
      (le32 s.m_label_entries.length ++
        s.m_label_entries.flatMap (fun e => le32 e.1 ++ sampleString e.2)) := rfl
  unfold LabelReadsBack ReadsBack
  rw [hb]
  refine ⟨by rfl, ?_, ?_⟩
  · rw [sampleImage_length _ _ (by decide)]; omega
  · intro data o ho hw
    obtain ⟨w1, w2, _⟩ := sample_window _ _ data o (by decide) hw
    have hr := sample_readLabel data _ (o + 16) s hn h w1
    beta_reduce
    rw [hr]
    refine ⟨s, _, rfl, hb, ?_⟩
    rw [List.length_append, List.length_replicate]
    exact sample_offset _ o _ _ _ _ ho rfl (by simp only [padded, List.length_append,
      List.length_replicate]) (by rw [List.length_drop]) w2

theorem sample_text_reads_back (s : TextSection) (hn : s.m_text_entries.length < 2 ^ 32)
    (h : ∀ e ∈ s.m_text_entries, sampleEncodable e.body) :
    TextReadsBack sampleExternals s := by
  have hb : sampleExternals.textSectionBytes s = sampleImage (charBytes "TXT2".toList)
      (le32 s.m_text_entries.length ++
        s.m_text_entries.flatMap (fun e => sampleString e.body)) := rfl
  unfold TextReadsBack ReadsBack
  rw [hb]
  refine ⟨by decide, by decide, by rfl, ?_, ?_⟩
  · rw [sampleImage_length _ _ (by decide)]; omega
  · intro data o ho hw
    obtain ⟨w1, w2, _⟩ := sample_window _ _ data o (by decide) hw
    have hr := sample_readText data _ (o + 16)
      (readLe32 ((sampleImage (charBytes "TXT2".toList)
        (le32 s.m_text_entries.length ++
          s.m_text_entries.flatMap (fun e => sampleString e.body))).take 16) 4) s hn h w1
    beta_reduce
    rw [hr]
    refine ⟨s, _, rfl, hb, ?_⟩
    rw [List.length_append, List.length_replicate]
    exact sample_offset _ o _ _ _ _ ho rfl (by simp only [padded, List.length_append,
      List.length_replicate]) (by rw [List.length_drop]) w2


theorem byteAt_drop (data : List UInt8) (o j : Nat) :
    byteAt (data.drop o) j = byteAt data (o + j) := by
  simp [byteAt, List.getD_eq_getElem?_getD, List.getElem?_drop]

theorem readLe32_drop (data : List UInt8) (o j : Nat) :
    readLe32 (data.drop o) j = readLe32 data (o + j) := by
  simp only [readLe32, byteAt_drop, Nat.add_assoc]

theorem readLe32_sampleImage (magic payload rest : List UInt8) (hm : magic.length = 4) :
    readLe32 (sampleImage magic payload ++ rest) 4 = payload.length % 2 ^ 32 := by
  have e : sampleImage magic payload ++ rest
      = magic ++ (le32 payload.length ++ (List.replicate 8 0 ++ payload ++ rest)) := by
    simp [sampleImage]
  have b : ∀ k, byteAt (sampleImage magic payload ++ rest) (4 + k)
      = byteAt (le32 payload.length ++ (List.replicate 8 0 ++ payload ++ rest)) k := by
    intro k; rw [e]; exact byteAt_append_right _ _ 4 k hm
  have h := readLe32_le32 payload.length (List.replicate 8 0 ++ payload ++ rest)
  have b0 : byteAt (sampleImage magic payload ++ rest) 4 = _ := b 0
  have b1 : byteAt (sampleImage magic payload ++ rest) (4 + 1) = _ := b 1
  have b2 : byteAt (sampleImage magic payload ++ rest) (4 + 2) = _ := b 2
  have b3 : byteAt (sampleImage magic payload ++ rest) (4 + 3) = _ := b 3
  rw [readLe32] at h ⊢
  rw [b0, b1, b2, b3]
  simpa using h

theorem sample_attribute_reads_back (s : AttributeSection) (hn : s.data.length < 2 ^ 32) :
    AttributeReadsBack sampleExternals s := by
  have hb : sampleExternals.attributeSectionBytes s
      = sampleImage (charBytes "ATR1".toList) s.data := rfl
  unfold AttributeReadsBack ReadsBack
  rw [hb]
  refine ⟨by decide, by rfl, ?_, ?_⟩
  · rw [sampleImage_length _ _ (by decide)]; omega
  · intro data o ho hw
    obtain ⟨w1, w2, _⟩ := sample_window _ _ data o (by decide) hw
    have hi := sampleImage_length (charBytes "ATR1".toList) s.data (by decide)
    have hP : 0 < (padded (sampleImage (charBytes "ATR1".toList) s.data)).length := by
      simp only [padded, List.length_append]; omega
    have hpl : (padded (sampleImage (charBytes "ATR1".toList) s.data)).length
        = (sampleImage (charBytes "ATR1".toList) s.data).length +
          (16 - (sampleImage (charBytes "ATR1".toList) s.data).length % 16) % 16 := by
      simp only [padded, List.length_append, List.length_replicate]
    obtain ⟨v1, _⟩ := window_split data _ o hP hw
    have hsize : readLe32 data (o + 16 - 12) = s.data.length := by
      have e : o + 16 - 12 = o + 4 := by omega
      rw [e, ← readLe32_drop, v1, padded, List.append_assoc,
        readLe32_sampleImage _ _ _ (by decide), Nat.mod_eq_of_lt hn]
    have hr : sampleExternals.readAttributeSection ⟨data, o + 16⟩
        = .ok (s, o + 16 + s.data.length) := by
      show (if o + 16 + readLe32 data (o + 16 - 12) ≤ data.length then
          Except.ok (AttributeSection.mk
            ((data.drop (o + 16)).take (readLe32 data (o + 16 - 12))),
            o + 16 + readLe32 data (o + 16 - 12))
        else Except.error "truncated attribute section") = _
      rw [hsize, if_pos (by omega), w1, List.take_left]
    beta_reduce
    rw [hr]
    refine ⟨s, _, rfl, hb, ?_⟩
    rw [hpl, hi, Nat.add_assoc, alignUp_add_16 o _ ho]
    omega

set_option maxRecDepth 100000 in
/-- The idempotence at the serialization of a model with three sections, for the
sample externals. -/
theorem ToBinary_idempotent_witness :
    FromBinary sampleExternals (ToBinary sampleExternals threeSectionModel)
        = .ok threeSectionModel ∧
      ∃ M1, FromBinary sampleExternals (ToBinary sampleExternals threeSectionModel) = .ok M1 ∧
        ToBinary sampleExternals M1 = ToBinary sampleExternals threeSectionModel :=
  ⟨by decide,
    ToBinary_idempotent sampleExternals (ToBinary sampleExternals threeSectionModel)
      threeSectionModel (by decide)
      (fun s hs => by
        have e : s = ⟨[(0, "A".toList), (1, "B".toList)]⟩ := (Option.some.inj hs).symm
        subst e
        exact sample_label_reads_back _ (by decide) (by decide))
      (fun s hs => by
        have e : s = ⟨[1, 2, 3]⟩ := (Option.some.inj hs).symm
        subst e
        exact sample_attribute_reads_back _ (by decide))
      (fun s hs => by
        have e : s = ⟨[⟨"x".toList⟩, ⟨"y".toList⟩]⟩ := (Option.some.inj hs).symm
        subst e
        exact sample_text_reads_back _ (by decide) (by decide))⟩


/-! ## The body loop never runs out of its iteration bound -/

theorem charAt_ok_le (text : List Char) (i : Nat) (c : Char) (h : charAt text i = .ok c) :
    i ≤ text.length := by
  unfold charAt at h
  split at h
  · rename_i d hd
    have := (List.getElem?_eq_some_iff.1 hd).1
    omega
  · split at h
    · omega
    · simp at h

theorem substr_two_ok (text : List Char) (k : Nat)
    (h : substr text k (some 2) = .ok [' ', ' ']) : k + 2 ≤ text.length := by
  unfold substr at h
  split at h
  · simp at h
  · simp only [Except.ok.injEq] at h
    have := congrArg List.length h
    simp only [List.length_take, List.length_drop, List.length_cons, List.length_nil] at this
    omega

theorem bodyLoop_fuel_aux (text : List Char) (fuel : Nat) :
    ∀ (i : Nat) (body : List Char), 0 < fuel → text.length + 2 ≤ fuel + i →
      bodyLoop text fuel i body ≠ .error .OutOfFuel := by
  induction fuel with
  | zero => intro i body h; omega
  | succ fuel ih =>
    intro i body _ hinv
    unfold bodyLoop
    simp only
    cases hc : charAt text (i + 1) with
    | error e =>
      simp only
      intro he
      unfold charAt at hc
      split at hc
      · simp at hc
      · split at hc
        · simp at hc
        · simp only [Except.error.injEq] at hc he
          rw [← hc] at he
          simp at he
    | ok c =>
      have hle := charAt_ok_le text (i + 1) c hc
      simp only
      split
      · exact ih (i + 1) _ (by omega) (by omega)
      · cases hs : substr text (i + 1 + 1) (some 2) with
        | error e =>
          simp only
          intro he
          unfold substr at hs
          split at hs
          · simp only [Except.error.injEq] at hs he
            rw [← hs] at he
            simp at he
          · simp at hs
        | ok s =>
          simp only
          split
          · rename_i hss
            rw [hss] at hs
            have := substr_two_ok text (i + 1 + 1) hs
            exact ih (i + 1 + 2) _ (by omega) (by omega)
          · simp

/-- The bound `text.length + 2` that the record loop gives the body loop always
suffices: the body loop returns or fails on its own account. -/
theorem bodyLoop_fuel (text : List Char) (i : Nat) (body : List Char) :
    bodyLoop text (text.length + 2) i body ≠ .error .OutOfFuel :=
  bodyLoop_fuel_aux text (text.length + 2) i body (by omega) (by omega)


/-! ## What the binary constructor accepts -/

/-- An accepted buffer has a full header with the right magic and version, and
the model is the outcome of the section loop. -/
theorem FromBinary_ok_inv (E : Externals) (data : List UInt8) (m : MSBT)
    (h : FromBinary E data = .ok m) :
    32 ≤ data.length ∧ data.take 8 = E.MsbtMagic ∧ readLe16 data 12 = 0x301 ∧
      ∃ r, readSections E (readLe16 data 14) ⟨data, 32⟩ ⟨none, none, none⟩ = .ok (m, r) := by
  by_cases h32 : 32 ≤ data.length
  · by_cases hmagic : data.take 8 = E.MsbtMagic
    · by_cases hver : readLe16 data 12 = 0x301
      · refine ⟨h32, hmagic, hver, ?_⟩
        rw [FromBinary_of_header E data h32 hmagic hver] at h
        split at h
        · simp at h
        · rename_i m1 r1 hr
          split at h
          · simp at h
          · split at h
            · simp at h
            · simp only [Except.ok.injEq] at h
              subst h
              exact ⟨r1, hr⟩
      · have h1 : (data.take 32).take 8 = E.MsbtMagic := by
          rw [List.take_take]; simpa using hmagic
        have h2 : readLe16 (data.take 32) 12 ≠ 0x301 := by
          rw [readLe16_take data 32 12 (by omega)]; exact hver
        simp [FromBinary, Read_header data h32, Header.ofBytes, h1, h2] at h
    · have h1 : (data.take 32).take 8 ≠ E.MsbtMagic := by
        rw [List.take_take]; simpa using hmagic
      simp [FromBinary, Read_header data h32, Header.ofBytes, h1] at h
  · have hR : (BinaryReader.mk data 0).Read Header.size = none := by
      have : 0 + 32 > data.length := by omega
      simp [BinaryReader.Read, Header.size, this]
    simp [FromBinary, hR] at h

/-- C11 (amended). Every buffer that the binary constructor accepts contains at
least one label section and at least one text section among the sections it
reads: the label magic and the text magic both occur among the magics of the
section headers read by the section loop. -/
theorem FromBinary_accepts_label_and_text (E : Externals) (data : List UInt8) (m : MSBT)
    (h : FromBinary E data = .ok m) :
    E.LabelSectionMagic ∈ sectionMagics E (readLe16 data 14) ⟨data, 32⟩ ⟨none, none, none⟩ ∧
      E.TextSectionMagic ∈ sectionMagics E (readLe16 data 14) ⟨data, 32⟩ ⟨none, none, none⟩ := by
  obtain ⟨_, _, _, r, hr⟩ := FromBinary_ok_inv E data m h
  obtain ⟨hl, ht⟩ := FromBinary_ok_sections E data m h
  obtain ⟨pl, pt⟩ := readSections_presence E _ _ _ _ _ hr
  simp only [Option.isSome_none, Bool.false_eq_true, false_or] at pl pt
  exact ⟨pl.1 hl, pt ht⟩

set_option maxRecDepth 100000 in
/-- The amended C11 at the serialization of the two-entry model. -/
theorem FromBinary_accepts_label_and_text_witness :
    FromBinary sampleExternals (ToBinary sampleExternals twoEntryModel) = .ok twoEntryModel ∧
      sectionMagics sampleExternals (readLe16 (ToBinary sampleExternals twoEntryModel) 14)
        ⟨ToBinary sampleExternals twoEntryModel, 32⟩ ⟨none, none, none⟩
        = [sampleExternals.LabelSectionMagic, sampleExternals.TextSectionMagic] ∧
      sampleExternals.LabelSectionMagic ∈
        sectionMagics sampleExternals (readLe16 (ToBinary sampleExternals twoEntryModel) 14)
          ⟨ToBinary sampleExternals twoEntryModel, 32⟩ ⟨none, none, none⟩ :=
  ⟨by decide, by decide,
    (FromBinary_accepts_label_and_text sampleExternals
      (ToBinary sampleExternals twoEntryModel) twoEntryModel (by decide)).1⟩

set_option maxRecDepth 100000 in
/-- C11 (as stated) fails. The buffer `twoLabelBuffer` declares three sections,
two of them label sections; the section loop reads the magics `LBL1`, `LBL1`,
`TXT2`, and the binary constructor accepts the buffer, keeping the second label
section. -/
theorem FromBinary_accepts_two_labels :
    twoLabelBuffer.length = 128 ∧ readLe16 twoLabelBuffer 14 = 3 ∧
      sectionMagics sampleExternals 3 ⟨twoLabelBuffer, 32⟩ ⟨none, none, none⟩
        = [charBytes "LBL1".toList, charBytes "LBL1".toList, charBytes "TXT2".toList] ∧
      FromBinary sampleExternals twoLabelBuffer
        = .ok ⟨some ⟨[(0, "B".toList)]⟩, none, some ⟨[⟨"x".toList⟩]⟩⟩ :=
  ⟨by decide, by decide, by decide, by decide⟩

/-- C12 (amended). The binary constructor compares no entry counts: for every
buffer with a valid header whose declared sections are all read successfully,
the buffer is accepted, with the sections as read, as soon as a label section
and a text section are among them, whatever the numbers of their entries. -/
theorem FromBinary_no_count_check (E : Externals) (data : List UInt8)
    (h32 : 32 ≤ data.length) (hmagic : data.take 8 = E.MsbtMagic)
    (hver : readLe16 data 12 = 0x301) (l : LabelSection) (a : Option AttributeSection)
    (t : TextSection) (r : BinaryReader)
    (hread : readSections E (readLe16 data 14) ⟨data, 32⟩ ⟨none, none, none⟩
      = .ok (⟨some l, a, some t⟩, r)) :
    FromBinary E data = .ok ⟨some l, a, some t⟩ := by
  rw [FromBinary_of_header E data h32 hmagic hver, hread]
  rfl

set_option maxRecDepth 100000 in
/-- The amended C12 at the serialization of a model with two labels and one
body. -/
theorem FromBinary_no_count_check_witness :
    readSections sampleExternals (readLe16 (ToBinary sampleExternals countMismatchModel) 14)
        ⟨ToBinary sampleExternals countMismatchModel, 32⟩ ⟨none, none, none⟩
        = .ok (countMismatchModel, ⟨ToBinary sampleExternals countMismatchModel, 112⟩) ∧
      FromBinary sampleExternals (ToBinary sampleExternals countMismatchModel)
        = .ok countMismatchModel :=
  ⟨by decide,
    FromBinary_no_count_check sampleExternals (ToBinary sampleExternals countMismatchModel)
      (by decide) (by decide) (by decide) ⟨[(0, "A".toList), (1, "B".toList)]⟩ none
      ⟨[⟨"x".toList⟩]⟩ ⟨ToBinary sampleExternals countMismatchModel, 112⟩ (by decide)⟩

set_option maxRecDepth 100000 in
/-- C12 (as stated) fails. The serialization of a model with two label entries
and one text entry is a buffer whose label and text sections both parse, with 2
and 1 entries; the binary constructor accepts it, and `ToText` of the accepted
container then indexes the text table out of range. -/
theorem FromBinary_accepts_count_mismatch :
    FromBinary sampleExternals (ToBinary sampleExternals countMismatchModel)
        = .ok ⟨some ⟨[(0, "A".toList), (1, "B".toList)]⟩, none, some ⟨[⟨"x".toList⟩]⟩⟩ ∧
      [(0, "A".toList), (1, "B".toList)].length ≠ [TextEntry.mk "x".toList].length ∧
      ToText countMismatchModel = .error .UndefinedBehaviour :=
  ⟨by decide, by decide, by decide⟩

/-! ## The header that `ToBinary` writes -/

theorem FromBinary_header_error (E : Externals) (data : List UInt8) (h32 : 32 ≤ data.length)
    (hmagic : data.take 8 = E.MsbtMagic) (hver : readLe16 data 12 = 0x301) (msg : String)
    (h : FromBinary E data = .error (.InvalidDataError msg)) :
    (∃ magic, msg = "Unsupported data block: " ++ magicText magic) ∨
      msg = "The label section (LBL1) was not found" ∨
      msg = "The text section (TXT2) was not found" := by
  rw [FromBinary_of_header E data h32 hmagic hver] at h
  split at h
  · rename_i e he
    simp only [Except.error.injEq] at h
    subst h
    exact Or.inl (readSections_error_message E _ _ _ _ he)
  · split at h
    · simp only [Except.error.injEq, Error.InvalidDataError.injEq] at h
      exact Or.inr (Or.inl h.symm)
    · split at h
      · simp only [Except.error.injEq, Error.InvalidDataError.injEq] at h
        exact Or.inr (Or.inr h.symm)
      · simp at h

theorem Header_padding_of_toBytes (h : Header) (hm : h.magic.length = 8)
    (hp : h._padding_3.length = 10) (body : List UInt8) :
    ((h.toBytes ++ body).drop 22).take 10 = h._padding_3 := by
  have e : h.toBytes ++ body = (h.magic ++ le16 h.bom ++ le16 h._padding_1 ++ le16 h.version ++
      le16 h.num_sections ++ le16 h._padding_2 ++ le32 h.file_size) ++ (h._padding_3 ++ body) := by
    simp [Header.toBytes]
  have l : (h.magic ++ le16 h.bom ++ le16 h._padding_1 ++ le16 h.version ++
      le16 h.num_sections ++ le16 h._padding_2 ++ le32 h.file_size).length = 22 := by
    simp [le16, le32, hm]
  rw [e, ← l, List.drop_left, ← hp, List.take_left]

/-- C20. For every model, the buffer that `ToBinary` returns has at least 32
bytes and its header passes the header checks of the binary constructor: the
first 8 bytes are `MsbtMagic`, the byte-order marker (offset 8) is `0xFEFF`, the
version (offset 12) is `0x301`, the reserved fields (offsets 10 and 16, and the
10 bytes from offset 22) are zero; hence the binary constructor run on that
buffer throws neither "Invalid MSBT magic" nor "Only MSBT version 3.0.1 is
supported". -/
theorem ToBinary_header_consistent (E : Externals) (m : MSBT) :
    32 ≤ (ToBinary E m).length ∧ (ToBinary E m).take 8 = E.MsbtMagic ∧
      readLe16 (ToBinary E m) 8 = 0xFEFF ∧ readLe16 (ToBinary E m) 10 = 0 ∧
      readLe16 (ToBinary E m) 12 = 0x301 ∧ readLe16 (ToBinary E m) 16 = 0 ∧
      ((ToBinary E m).drop 22).take 10 = List.replicate 10 0 ∧
      FromBinary E (ToBinary E m) ≠ .error (.InvalidDataError "Invalid MSBT magic") ∧
      FromBinary E (ToBinary E m)
        ≠ .error (.InvalidDataError "Only MSBT version 3.0.1 is supported") := by
  obtain ⟨h32, hmagic, hver⟩ := ToBinary_header_valid E m
  have hf := Header_fields_of_toBytes (outputHeader E m) E.MsbtMagic_size
    ((sectionImages E m).flatMap padded)
  have hp := Header_padding_of_toBytes (outputHeader E m) E.MsbtMagic_size
    (by simp [outputHeader]) ((sectionImages E m).flatMap padded)
  rw [← ToBinary_eq] at hf hp
  refine ⟨h32, hmagic, ?_, ?_, hver, ?_, ?_, ?_, ?_⟩
  · rw [hf.2.1]; rfl
  · rw [hf.2.2.1]; rfl
  · rw [hf.2.2.2.2.2.1]; rfl
  · rw [hp]; rfl
  · intro h
    rcases FromBinary_header_error E _ h32 hmagic hver _ h with ⟨magic, hm⟩ | hm | hm
    · exact unsupported_block_ne (magicText magic) _ 'I' (by decide) hm.symm
    · revert hm; decide
    · revert hm; decide
  · intro h
    rcases FromBinary_header_error E _ h32 hmagic hver _ h with ⟨magic, hm⟩ | hm | hm
    · exact unsupported_block_ne (magicText magic) _ 'O' (by decide) hm.symm
    · revert hm; decide
    · revert hm; decide

/-! ## The text constructor on arbitrary documents -/

theorem findCharFrom_append_other (c d : Char) (l : List Char) (k : Nat) (h : d ≠ c) :
    findCharFrom c (l ++ [d]) k = findCharFrom c l k := by
  induction l generalizing k with
  | nil => simp [findCharFrom, h]
  | cons x l ih =>
    simp only [List.cons_append, findCharFrom]
    split
    · rfl
    · exact ih (k + 1)

/-- C16. For every non-empty document `T` that does not end with a newline, the
text constructor has the same outcome on `T` and on `T` followed by one newline
(the same model when it returns one), for every bound on the iterations of the
record loop. -/
theorem FromText_trailing_newline (fuel : Nat) (T : List Char) (hne : T ≠ [])
    (hlast : T.getLast? ≠ some '\n') :
    FromText fuel T = FromText fuel (T ++ ['\n']) := by
  have hfind : find_char (T ++ ['\n']) ':' (some 0) = find_char T ':' (some 0) := by
    simp only [find_char, List.drop_zero]
    exact findCharFrom_append_other ':' '\n' T 0 (by decide)
  cases hT : T.getLast? with
  | none => exact absurd (List.getLast?_eq_none_iff.1 hT) hne
  | some last =>
    have hl : last ≠ '\n' := by
      intro e; apply hlast; rw [hT, e]
    simp only [FromText, hT, List.getLast?_concat, hfind, ne_eq, hl, not_false_eq_true,
      if_true, not_true_eq_false, if_false]

/-- The trailing-newline normalisation at the document `A: |-\n  x`. -/
theorem FromText_trailing_newline_witness :
    "A: |-\n  x".toList ≠ [] ∧ "A: |-\n  x".toList.getLast? ≠ some '\n' ∧
      FromText 1 "A: |-\n  x".toList = .ok ⟨some ⟨[(0, "A".toList)]⟩, none,
        some ⟨[⟨"x".toList⟩]⟩⟩ ∧
      FromText 1 "A: |-\n  x".toList = FromText 1 ("A: |-\n  x".toList ++ ['\n']) :=
  ⟨by decide, by decide, by rfl,
    FromText_trailing_newline 1 "A: |-\n  x".toList (by decide) (by decide)⟩

theorem findCharFrom_some_inv (c : Char) (l : List Char) (k p : Nat)
    (h : findCharFrom c l k = some p) :
    ∃ before after, l = before ++ c :: after ∧ c ∉ before ∧ p = k + before.length := by
  induction l generalizing k with
  | nil => simp [findCharFrom] at h
  | cons d l ih =>
    simp only [findCharFrom] at h
    split at h
    · rename_i hd
      simp only [Option.some.injEq] at h
      exact ⟨[], l, by simp [hd], by simp, by simp [h]⟩
    · rename_i hd
      obtain ⟨before, after, h1, h2, h3⟩ := ih (k + 1) h
      refine ⟨d :: before, after, by simp [h1], ?_, by simp [h3]; omega⟩
      intro hm
      rcases List.mem_cons.1 hm with e | e
      · exact hd e.symm
      · exact h2 e

theorem findCharFrom_none_inv (c : Char) (l : List Char) (k : Nat)
    (h : findCharFrom c l k = none) : c ∉ l := by
  induction l generalizing k with
  | nil => simp
  | cons d l ih =>
    simp only [findCharFrom] at h
    split at h
    · simp at h
    · rename_i hd
      intro hm
      rcases List.mem_cons.1 hm with e | e
      · exact hd e.symm
      · exact ih (k + 1) h e

theorem charAt_newline (text : List Char) (i : Nat) (h : charAt text i = .ok '\n') :
    text[i]? = some '\n' := by
  unfold charAt at h
  split at h
  · rename_i c hc
    simp only [Except.ok.injEq] at h
    rw [hc, h]
  · split at h
    · simp only [Except.ok.injEq] at h
      exact absurd h (by decide)
    · simp at h

/-- When the body loop returns, it stands on a newline of the text that is not
followed by two spaces. -/
theorem bodyLoop_exit (text : List Char) (fuel : Nat) :
    ∀ (i : Nat) (body : List Char) (e : Nat) (b : List Char),
      bodyLoop text fuel i body = .ok (e, b) →
      text[e]? = some '\n' ∧ (text.drop (e + 1)).take 2 ≠ [' ', ' '] := by
  induction fuel with
  | zero => intro i body e b h; simp [bodyLoop] at h
  | succ fuel ih =>
    intro i body e b h
    unfold bodyLoop at h
    simp only at h
    cases hc : charAt text (i + 1) with
    | error err => rw [hc] at h; simp at h
    | ok c =>
      rw [hc] at h
      simp only at h
      split at h
      · exact ih _ _ _ _ h
      · rename_i hcn
        have hcn' : c = '\n' := by simpa using hcn
        cases hs : substr text (i + 1 + 1) (some 2) with
        | error err => rw [hs] at h; simp at h
        | ok s =>
          rw [hs] at h
          simp only at h
          split at h
          · exact ih _ _ _ _ h
          · rename_i hss
            simp only [Except.ok.injEq, Prod.mk.injEq] at h
            obtain ⟨h1, _⟩ := h
            subst h1
            rw [hcn'] at hc
            refine ⟨charAt_newline text _ hc, ?_⟩
            unfold substr at hs
            split at hs
            · simp at hs
            · simp only [Except.ok.injEq] at hs
              rw [hs]; exact hss

theorem drop_of_getElem? (text : List Char) (e : Nat) (c : Char) (h : text[e]? = some c) :
    text.drop e = c :: text.drop (e + 1) := by
  obtain ⟨hlt, hget⟩ := List.getElem?_eq_some_iff.1 h
  rw [List.drop_eq_getElem_cons hlt, hget]

/-- The label that the record loop takes after a body: it has no colon and does
not start with two spaces. -/
theorem next_label_good (text : List Char) (e : Nat) (he : text[e]? = some '\n')
    (hni : (text.drop (e + 1)).take 2 ≠ [' ', ' ']) (label : List Char)
    (h : substr text (e + 1) (subCount (find_char text ':' (some e)) (e + 1)) = .ok label) :
    ':' ∉ label ∧ ¬ [' ', ' '] <+: label := by
  have hd := drop_of_getElem? text e '\n' he
  have hni' : ¬ [' ', ' '] <+: text.drop (e + 1) := fun hp => hni ((take_two_spaces _).2 hp)
  unfold substr at h
  split at h
  · simp at h
  · cases hf : find_char text ':' (some e) with
    | none =>
      rw [hf] at h
      simp only [find_char, hd] at hf
      have hc := findCharFrom_none_inv ':' _ e hf
      simp only [subCount, Except.ok.injEq] at h
      subst h
      exact ⟨fun hm => hc (List.mem_cons_of_mem _ hm), hni'⟩
    | some p =>
      rw [hf] at h
      simp only [find_char, hd] at hf
      obtain ⟨before, after, h1, h2, h3⟩ := findCharFrom_some_inv ':' _ e p hf
      cases before with
      | nil =>
        simp only [List.nil_append, List.cons.injEq] at h1
        exact absurd h1.1 (by decide)
      | cons x rest =>
        simp only [List.cons_append, List.cons.injEq] at h1
        obtain ⟨_, h1⟩ := h1
        have hp : p = e + 1 + rest.length := by simp at h3; omega
        have hle : e + 1 ≤ p := by omega
        simp only [subCount, hle, if_true, Except.ok.injEq] at h
        have hlab : label = rest := by
          rw [← h, h1, hp]
          have : e + 1 + rest.length - (e + 1) = rest.length := by omega
          rw [this, List.take_left]
        subst hlab
        refine ⟨fun hm => h2 (List.mem_cons_of_mem _ hm), ?_⟩
        intro hpre
        apply hni'
        rw [h1]
        exact hpre.trans (List.prefix_append _ _)

/-- The first label that the record loop takes has no colon. -/
theorem first_label_colon_free (src text : List Char)
    (ht : text = src ∨ text = src ++ ['\n']) (label : List Char)
    (h : substr text 0 (subCount (find_char src ':' (some 0)) 0) = .ok label) :
    ':' ∉ label := by
  unfold substr at h
  split at h
  · simp at h
  · cases hf : find_char src ':' (some 0) with
    | none =>
      rw [hf] at h
      simp only [find_char, List.drop_zero] at hf
      have hc := findCharFrom_none_inv ':' _ 0 hf
      simp only [subCount, List.drop_zero, Except.ok.injEq] at h
      subst h
      rcases ht with ht | ht
      · rw [ht]; exact hc
      · rw [ht]
        intro hm
        rcases List.mem_append.1 hm with e | e
        · exact hc e
        · simp at e
    | some p =>
      rw [hf] at h
      simp only [find_char, List.drop_zero] at hf
      obtain ⟨before, after, h1, h2, h3⟩ := findCharFrom_some_inv ':' _ 0 p hf
      simp only [subCount, Nat.zero_le, if_true, List.drop_zero, Nat.sub_zero,
        Except.ok.injEq] at h
      have hp : p = before.length := by omega
      have hlab : label = before := by
        rw [← h, hp]
        rcases ht with ht | ht
        · rw [ht, h1, List.take_left]
        · rw [ht, h1, List.append_assoc, List.take_left]
      rw [hlab]
      exact h2

/-- What the record loop appends: as many labels as bodies, with consecutive
indices from `index` on; at least one when the loop is entered; the first
label as the loop state determines it (`P`), the later ones without a colon and
not starting with two spaces. -/
theorem recordLoop_inv (text : List Char) (fuel : Nat) :
    ∀ (P : List Char → Prop) (i : Nat) (pos : Option Nat) (index : Nat)
      (labels : List (Nat × List Char)) (texts : List TextEntry)
      (ls : List (Nat × List Char)) (ts : List TextEntry),
      (∀ label, substr text i (subCount pos i) = .ok label → P label) →
      recordLoop text fuel i pos index labels texts = .ok (ls, ts) →
      ∃ newL newT, ls = labels ++ newL ∧ ts = texts ++ newT ∧
        newL.length = newT.length ∧
        newL.map Prod.fst = List.range' index newL.length ∧
        (i < text.length → newL ≠ []) ∧
        (∀ e ∈ newL.head?, P e.2) ∧
        (∀ e ∈ newL.tail, ':' ∉ e.2 ∧ ¬ [' ', ' '] <+: e.2) := by
  induction fuel with
  | zero =>
    intro P i pos index labels texts ls ts _ h
    unfold recordLoop at h
    split at h
    · simp at h
    · rename_i hlt
      simp only [Except.ok.injEq, Prod.mk.injEq] at h
      obtain ⟨h1, h2⟩ := h
      exact ⟨[], [], by simp [h1], by simp [h2], rfl, rfl, fun hi => absurd hi hlt,
        by simp, by simp⟩
  | succ fuel ih =>
    intro P i pos index labels texts ls ts hP h
    unfold recordLoop at h
    split at h
    · simp only at h
      cases hsub : substr text i (subCount pos i) with
      | error err => rw [hsub] at h; simp at h
      | ok label =>
        rw [hsub] at h
        simp only at h
        cases hbody : bodyLoop text (text.length + 2)
            (addTwo (find_str text ['\n', ' ', ' '] pos)) [] with
        | error err => rw [hbody] at h; simp at h
        | ok res =>
          obtain ⟨e, b⟩ := res
          rw [hbody] at h
          simp only at h
          obtain ⟨he, hni⟩ := bodyLoop_exit text _ _ _ e b hbody
          obtain ⟨newL, newT, h1, h2, h3, h4, _, h6, h7⟩ :=
            ih (fun l => ':' ∉ l ∧ ¬ [' ', ' '] <+: l) (e + 1) _ (index + 1) _ _ ls ts
              (fun l hl => next_label_good text e he hni l hl) h
          refine ⟨(index, label) :: newL, TextEntry.mk b :: newT, by simp [h1], by simp [h2],
            by simp [h3], ?_, fun _ => by simp, ?_, ?_⟩
          · simp only [List.map_cons, List.length_cons, h4]
            exact (List.range'_succ index newL.length 1).symm
          · intro x hx
            simp only [List.head?_cons, Option.mem_def, Option.some.injEq] at hx
            subst hx
            exact hP label hsub
          · intro x hx
            simp only [List.tail_cons] at hx
            cases newL with
            | nil => simp at hx
            | cons y ys =>
              rcases List.mem_cons.1 hx with e1 | e1
              · subst e1
                exact h6 x (by simp)
              · exact h7 x (by simpa using e1)
    · rename_i hlt
      simp only [Except.ok.injEq, Prod.mk.injEq] at h
      obtain ⟨h1, h2⟩ := h
      exact ⟨[], [], by simp [h1], by simp [h2], rfl, rfl, fun hi => absurd hi hlt,
        by simp, by simp⟩

/-- The models that the text constructor returns: a label section and a text
section and no attribute section; at least one entry; as many labels as bodies;
the `k`-th label carries the index `k`; no label has a colon and no label but the
first starts with two spaces. -/
theorem FromText_inv (fuel : Nat) (src : List Char) (m : MSBT)
    (h : FromText fuel src = .ok m) :
    ∃ ls ts, m = ⟨some ⟨ls⟩, none, some ⟨ts⟩⟩ ∧ ls ≠ [] ∧ ls.length = ts.length ∧
      ls.map Prod.fst = List.range ls.length ∧
      (∀ e ∈ ls, ':' ∉ e.2) ∧ (∀ e ∈ ls.tail, ¬ [' ', ' '] <+: e.2) := by
  unfold FromText at h
  cases hlast : src.getLast? with
  | none => rw [hlast] at h; simp at h
  | some last =>
    rw [hlast] at h
    simp only at h
    have hsrc : src ≠ [] := by
      intro e; rw [e] at hlast; simp at hlast
    generalize htext : (if last ≠ '\n' then src ++ ['\n'] else src) = text at h
    have ht : text = src ∨ text = src ++ ['\n'] := by
      rw [← htext]; split
      · exact Or.inr rfl
      · exact Or.inl rfl
    have hlen : 0 < text.length := by
      have := List.length_pos.2 hsrc
      rcases ht with e | e
      · rw [e]; exact this
      · rw [e]; simp
    cases hrec : recordLoop text fuel 0 (find_char src ':' (some 0)) 0 [] [] with
    | error err => rw [hrec] at h; simp at h
    | ok res =>
      obtain ⟨ls, ts⟩ := res
      rw [hrec] at h
      simp only [Except.ok.injEq] at h
      obtain ⟨newL, newT, h1, h2, h3, h4, h5, h6, h7⟩ :=
        recordLoop_inv text fuel (fun l => ':' ∉ l) 0 _ 0 [] [] ls ts
          (fun l hl => first_label_colon_free src text ht l hl) hrec
      simp only [List.nil_append] at h1 h2
      subst h1 h2
      refine ⟨ls, ts, h.symm, h5 hlen, h3, ?_, ?_, fun e he => (h7 e he).2⟩
      · rw [h4, List.range_eq_range']
      · intro e he
        cases ls with
        | nil => simp at he
        | cons y ys =>
          rcases List.mem_cons.1 he with e1 | e1
          · subst e1
            exact h6 e (by simp)
          · exact (h7 e (by simpa using e1)).1

/-- A model with indices `0, 1, ..., n-1` as a list of (label, body) records. -/
theorem tables_records (labels : List (Nat × List Char)) (texts : List TextEntry)
    (hidx : labels.map Prod.fst = List.range texts.length) (hne : labels ≠ [])
    (hcolon : ∀ entry ∈ labels, ':' ∉ entry.2)
    (hind : ∀ entry ∈ labels.tail, ¬ [' ', ' '] <+: entry.2) :
    ∃ recs : List (List Char × List Char),
      labels = (recs.enumFrom 0).map (fun p => (p.1, p.2.1)) ∧
      texts = recs.map (fun r => TextEntry.mk r.2) ∧ recs ≠ [] ∧
      recs.length = labels.length ∧ (∀ r ∈ recs, ':' ∉ r.1) ∧
      (∀ r ∈ recs.tail, ¬ [' ', ' '] <+: r.1) := by
  obtain ⟨hl, ht⟩ := tables_as_records labels texts hidx
  generalize (labels.map Prod.snd).zip (texts.map TextEntry.body) = recs at hl ht
  have hsnd : labels.map Prod.snd = recs.map Prod.fst := by
    rw [hl, List.map_map]
    have : (Prod.snd ∘ fun p : Nat × List Char × List Char => (p.1, p.2.1))
        = Prod.fst ∘ Prod.snd := rfl
    rw [this, ← List.map_map, List.enumFrom_map_snd]
  refine ⟨recs, hl, ht, ?_, ?_, ?_, ?_⟩
  · intro h
    apply hne
    rw [hl, h]
    rfl
  · have := congrArg List.length hsnd
    simpa using this.symm
  · intro r hr
    have hm : r.1 ∈ labels.map Prod.snd := by
      rw [hsnd]; exact List.mem_map_of_mem _ hr
    obtain ⟨e, he, hee⟩ := List.mem_map.1 hm
    rw [← hee]
    exact hcolon e he
  · intro r hr
    have hm : r.1 ∈ labels.tail.map Prod.snd := by
      rw [List.map_tail, hsnd, ← List.map_tail]; exact List.mem_map_of_mem _ hr
    obtain ⟨e, he, hee⟩ := List.mem_map.1 hm
    rw [← hee]
    exact hind e he

theorem indices_as_range (labels : List (Nat × List Char)) (n : Nat) (hl : labels.length = n)
    (hidx : ∀ k (hk : k < labels.length), labels[k].1 = k) :
    labels.map Prod.fst = List.range n := by
  apply List.ext_getElem
  · simp [hl]
  · intro k h1 h2
    simp only [List.length_map] at h1
    simp only [List.getElem_map, List.getElem_range]
    exact hidx k h1

/-- C17. For every model with `n >= 1` entries whose label indices are
`0, 1, ..., n-1` in table order, whose text table has exactly `n` bodies, whose
labels contain no colon and whose labels other than the first do not begin with
two spaces, `ToText` returns the document of §4.4 and the text constructor
parses that document back to exactly the model, whatever the bodies are (`n`
iterations of the record loop suffice). -/
theorem FromText_ToText_grammar (n : Nat) (labels : List (Nat × List Char))
    (texts : List TextEntry) (hn : 1 ≤ n) (hl : labels.length = n) (ht : texts.length = n)
    (hidx : ∀ k (hk : k < labels.length), labels[k].1 = k)
    (hcolon : ∀ entry ∈ labels, ':' ∉ entry.2)
    (hind : ∀ entry ∈ labels.tail, ¬ [' ', ' '] <+: entry.2) :
    ToText ⟨some ⟨labels⟩, none, some ⟨texts⟩⟩ = .ok (specToText labels texts) ∧
      ∀ fuel, n ≤ fuel →
        FromText fuel (specToText labels texts) = .ok ⟨some ⟨labels⟩, none, some ⟨texts⟩⟩ := by
  have hrange : labels.map Prod.fst = List.range texts.length := by
    rw [ht]; exact indices_as_range labels n hl hidx
  have hne : labels ≠ [] := by
    intro e; rw [e] at hl; simp at hl; omega
  have hvalid : ∀ entry ∈ labels, entry.1 < texts.length := by
    intro entry he
    have : entry.1 ∈ labels.map Prod.fst := List.mem_map_of_mem _ he
    rw [hrange] at this
    exact List.mem_range.1 this
  have hspec : ToText ⟨some ⟨labels⟩, none, some ⟨texts⟩⟩ = .ok (specToText labels texts) := by
    simp [ToText, ToTextLoop_eq texts labels [] hvalid]
  obtain ⟨recs, e1, e2, hne2, hlen, hc, hi⟩ := tables_records labels texts hrange hne hcolon hind
  have hrec := ToText_records recs none
  rw [← e1, ← e2, hspec] at hrec
  have hdoc : specToText labels texts = recordsText recs := by
    simpa using hrec
  refine ⟨hspec, ?_⟩
  intro fuel hfuel
  have := FromText_recordsText recs hne2 hc hi fuel (by omega)
  rw [← e1, ← e2, ← hdoc] at this
  exact this

/-- The round trip at the models `[(0, "Greeting", "Hello\nworld")]` and
`[(0, "A", "x"), (1, "B", "y")]`, and at a model whose body has empty lines, a
line that begins with spaces, a colon and a final newline. -/
theorem FromText_ToText_grammar_witness :
    (∀ fuel, 1 ≤ fuel → FromText fuel "Greeting: |-\n  Hello\n  world\n".toList
      = .ok ⟨some ⟨[(0, "Greeting".toList)]⟩, none, some ⟨[⟨"Hello\nworld".toList⟩]⟩⟩) ∧
    (∀ fuel, 2 ≤ fuel → FromText fuel "A: |-\n  x\nB: |-\n  y\n".toList
      = .ok ⟨some ⟨[(0, "A".toList), (1, "B".toList)]⟩, none,
          some ⟨[⟨"x".toList⟩, ⟨"y".toList⟩]⟩⟩) ∧
    (∀ fuel, 1 ≤ fuel → FromText fuel "L: |-\n  \n  \n    a: b\n  \n".toList
      = .ok ⟨some ⟨[(0, "L".toList)]⟩, none, some ⟨[⟨"\n\n  a: b\n".toList⟩]⟩⟩) :=
  ⟨(FromText_ToText_grammar 1 [(0, "Greeting".toList)] [⟨"Hello\nworld".toList⟩]
      (by decide) (by decide) (by decide) (by decide) (by decide) (by decide)).2,
    (FromText_ToText_grammar 2 [(0, "A".toList), (1, "B".toList)]
      [⟨"x".toList⟩, ⟨"y".toList⟩]
      (by decide) (by decide) (by decide) (by decide) (by decide) (by decide)).2,
    (FromText_ToText_grammar 1 [(0, "L".toList)] [⟨"\n\n  a: b\n".toList⟩]
      (by decide) (by decide) (by decide) (by decide) (by decide) (by decide)).2⟩

/-- C18. For every document on which the text constructor returns a model, the
label table and the text table of the model have the same length `n`, the
`k`-th label entry carries the index `k` (the indices are `0, 1, ..., n-1`), and
every label index is a position of the text table. -/
theorem FromText_index_invariant (fuel : Nat) (src : List Char) (m : MSBT)
    (h : FromText fuel src = .ok m) :
    ∃ ls ts, m.m_label_section = some ⟨ls⟩ ∧ m.m_text_section = some ⟨ts⟩ ∧
      ls.length = ts.length ∧ ls.map Prod.fst = List.range ls.length ∧
      (∀ k (hk : k < ls.length), ls[k].1 = k) ∧ (∀ e ∈ ls, e.1 < ts.length) := by
  obtain ⟨ls, ts, hm, _, hlen, hidx, _, _⟩ := FromText_inv fuel src m h
  subst hm
  refine ⟨ls, ts, rfl, rfl, hlen, hidx, ?_, ?_⟩
  · intro k hk
    have h3 : (ls.map Prod.fst)[k]? = some k := by
      rw [hidx]; exact List.getElem?_range hk
    rw [List.getElem?_map, List.getElem?_eq_getElem hk] at h3
    simpa using h3
  · intro e he
    have : e.1 ∈ ls.map Prod.fst := List.mem_map_of_mem _ he
    rw [hidx, List.mem_range] at this
    omega

/-- The index invariant at a three-record document. -/
theorem FromText_index_invariant_witness :
    FromText 3 "A: |-\n  x\nB: |-\n  y\nC: |-\n  z\n".toList
        = .ok ⟨some ⟨[(0, "A".toList), (1, "B".toList), (2, "C".toList)]⟩, none,
            some ⟨[⟨"x".toList⟩, ⟨"y".toList⟩, ⟨"z".toList⟩]⟩⟩ ∧
      ∃ ls ts, (MSBT.mk (some ⟨[(0, "A".toList), (1, "B".toList), (2, "C".toList)]⟩) none
            (some ⟨[⟨"x".toList⟩, ⟨"y".toList⟩, ⟨"z".toList⟩]⟩)).m_label_section = some ⟨ls⟩ ∧
          (MSBT.mk (some ⟨[(0, "A".toList), (1, "B".toList), (2, "C".toList)]⟩) none
            (some ⟨[⟨"x".toList⟩, ⟨"y".toList⟩, ⟨"z".toList⟩]⟩)).m_text_section = some ⟨ts⟩ ∧
          ls.length = ts.length ∧ ls.map Prod.fst = List.range ls.length ∧
          (∀ k (hk : k < ls.length), ls[k].1 = k) ∧ (∀ e ∈ ls, e.1 < ts.length) :=
  ⟨by rfl, FromText_index_invariant 3 "A: |-\n  x\nB: |-\n  y\nC: |-\n  z\n".toList _ (by rfl)⟩

/-- C19. For every document `T` on which the text constructor returns a model
`M` (a run that returns has read nothing out of range): the labels of `M`
contain no colon and, after the first, do not begin with two spaces; `ToText`
returns a document for `M`; and the text constructor parses that document back
to exactly `M` (as many iterations of the record loop as `M` has entries
suffice). -/
theorem FromText_reparse_stable (fuel : Nat) (T : List Char) (M : MSBT)
    (h : FromText fuel T = .ok M) :
    ∃ ls ts doc, M = ⟨some ⟨ls⟩, none, some ⟨ts⟩⟩ ∧
      (∀ e ∈ ls, ':' ∉ e.2) ∧ (∀ e ∈ ls.tail, ¬ [' ', ' '] <+: e.2) ∧
      ToText M = .ok doc ∧ ∀ fuel2, ls.length ≤ fuel2 → FromText fuel2 doc = .ok M := by
  obtain ⟨ls, ts, hm, hne, hlen, hidx, hc, hi⟩ := FromText_inv fuel T M h
  subst hm
  have hrange : ls.map Prod.fst = List.range ts.length := by rw [hidx, hlen]
  obtain ⟨recs, e1, e2, hne2, hl2, hc2, hi2⟩ := tables_records ls ts hrange hne hc hi
  refine ⟨ls, ts, recordsText recs, rfl, hc, hi, ?_, ?_⟩
  · have := ToText_records recs none
    rw [← e1, ← e2] at this
    exact this
  · intro fuel2 hfuel
    have := FromText_recordsText recs hne2 hc2 hi2 fuel2 (by omega)
    rw [← e1, ← e2] at this
    exact this

/-- The re-parse stability at the malformed document `abc\n` (no colon), which
the text constructor parses to the single label `abc\n` with the body `c`. -/
theorem FromText_reparse_stable_witness :
    FromText 1 "abc\n".toList
        = .ok ⟨some ⟨[(0, "abc\n".toList)]⟩, none, some ⟨[⟨"c".toList⟩]⟩⟩ ∧
      ToText ⟨some ⟨[(0, "abc\n".toList)]⟩, none, some ⟨[⟨"c".toList⟩]⟩⟩
        = .ok "abc\n: |-\n  c\n".toList ∧
      FromText 1 "abc\n: |-\n  c\n".toList
        = .ok ⟨some ⟨[(0, "abc\n".toList)]⟩, none, some ⟨[⟨"c".toList⟩]⟩⟩ ∧
      ∃ ls ts doc, (MSBT.mk (some ⟨[(0, "abc\n".toList)]⟩) none (some ⟨[⟨"c".toList⟩]⟩))
          = ⟨some ⟨ls⟩, none, some ⟨ts⟩⟩ ∧
        (∀ e ∈ ls, ':' ∉ e.2) ∧ (∀ e ∈ ls.tail, ¬ [' ', ' '] <+: e.2) ∧
        ToText ⟨some ⟨[(0, "abc\n".toList)]⟩, none, some ⟨[⟨"c".toList⟩]⟩⟩ = .ok doc ∧
        ∀ fuel2, ls.length ≤ fuel2 → FromText fuel2 doc
          = .ok ⟨some ⟨[(0, "abc\n".toList)]⟩, none, some ⟨[⟨"c".toList⟩]⟩⟩ :=
  ⟨by rfl, by rfl, by rfl, FromText_reparse_stable 1 "abc\n".toList _ (by rfl)⟩

/-! ## The text constructor on documents without a colon -/

/-- C13 fails on the code. The document `abc\n` contains no colon, and the text
constructor returns for it a model with one label entry (the whole text) and
one text entry (`c`); and for no document at all does the text constructor
return a model without entries. -/
theorem FromText_colon_free_entry :
    ':' ∉ "abc\n".toList ∧
      FromText 1 "abc\n".toList
        = .ok ⟨some ⟨[(0, "abc\n".toList)]⟩, none, some ⟨[⟨"c".toList⟩]⟩⟩ ∧
      ∀ fuel src m, FromText fuel src = .ok m → m.m_label_section ≠ some ⟨[]⟩ := by
  refine ⟨by decide, by rfl, ?_⟩
  intro fuel src m h
  obtain ⟨ls, ts, hm, hne, _⟩ := FromText_inv fuel src m h
  subst hm
  intro e
  simp only [Option.some.injEq, LabelSection.mk.injEq] at e
  exact hne e

/-- C14 fails on the code. For the document `a` the normalised text is `a\n`, of
length 2; no body marker is found, `find(...) + 2` wraps around to 1, and the
body loop first reads `text[2]`, the terminator at the index `size()`, and then
`text[3]`, past the end. The same happens for the document `\n`, where the
first read is `text[2]` with `size() = 1`. Whatever the bound on the record loop
(at least one iteration), the run is undefined. -/
theorem FromText_reads_out_of_range :
    charAt "a\n".toList 2 = .ok (Char.ofNat 0) ∧
      charAt "a\n".toList 3 = .error .UndefinedBehaviour ∧
      bodyLoop "a\n".toList ("a\n".toList.length + 2)
        (addTwo (find_str "a\n".toList ['\n', ' ', ' '] none)) [] = .error .UndefinedBehaviour ∧
      (∀ fuel, FromText (fuel + 1) "a".toList = .error .UndefinedBehaviour) ∧
      charAt "\n".toList 2 = .error .UndefinedBehaviour ∧
      (∀ fuel, FromText (fuel + 1) "\n".toList = .error .UndefinedBehaviour) :=
  ⟨by rfl, by rfl, by rfl, fun _ => by rfl, by rfl, fun _ => by rfl⟩

theorem recordLoop_twoLine (fuel : Nat) :
    ∀ (index : Nat) (labels : List (Nat × List Char)) (texts : List TextEntry),
      recordLoop twoLineDocument fuel 4 none index labels texts = .error .OutOfFuel := by
  induction fuel with
  | zero => intro index labels texts; rfl
  | succ fuel ih =>
    intro index labels texts
    have step : recordLoop twoLineDocument (fuel + 1) 4 none index labels texts
        = recordLoop twoLineDocument fuel 4 none (index + 1)
            (labels ++ [(index, "def\n".toList)]) (texts ++ [TextEntry.mk "c".toList]) := by
      rfl
    rw [step]
    exact ih _ _ _

/-- C15 fails on the code. On the document `abc\ndef\n` the record loop never
ends: no colon is found, so every iteration restarts the body scan at index 2
and leaves `i = 4 < 8`, appending one more entry; whatever the bound on the
iterations, the run is cut by the bound. -/
theorem FromText_does_not_terminate :
    ∀ fuel, FromText fuel twoLineDocument = .error .OutOfFuel := by
  intro fuel
  cases fuel with
  | zero => rfl
  | succ fuel =>
    have step : FromText (fuel + 1) twoLineDocument
        = match recordLoop twoLineDocument fuel 4 none 1 [(0, "abc\ndef\n".toList)]
            [TextEntry.mk "c".toList] with
          | .error e => .error e
          | .ok (labels, texts) => .ok ⟨some ⟨labels⟩, none, some ⟨texts⟩⟩ := by
      rfl
    rw [step, recordLoop_twoLine]

end Msbt
